import Mathlib

/-! # URL signing (`urlsigner.go`, package `signurl`)

A shallow embedding of `SignURL` and of the Go standard-library routines it
calls (`encoding/base64`, `net/url`, `crypto/sha1`, `crypto/hmac`), followed by
theorems about the natural-language specification of the signer.

Go strings and byte slices are sequences of bytes; they are embedded as lists
of natural numbers, each meant to be below 256.  Machine words are natural
numbers reduced modulo `2 ^ 32` (or `2 ^ 64`) where the Go code would wrap.
-/

namespace SignUrl

/-- A Go `string` or `[]byte`: a sequence of bytes. -/
abbrev Bytes := List Nat

/-- UTF-8 encoding of one code point, as the Go compiler stores a string literal. -/
def utf8 (c : Nat) : Bytes :=
  if c < 0x80 then [c]
  else if c < 0x800 then [0xC0 + c / 0x40, 0x80 + c % 0x40]
  else if c < 0x10000 then [0xE0 + c / 0x1000, 0x80 + c / 0x40 % 0x40, 0x80 + c % 0x40]
  else [0xF0 + c / 0x40000, 0x80 + c / 0x1000 % 0x40, 0x80 + c / 0x40 % 0x40, 0x80 + c % 0x40]

/-- The bytes of a string literal. -/
def str (s : String) : Bytes :=
  s.toList.flatMap fun c => utf8 c.toNat

/-! ## `encoding/base64`, the `URLEncoding` value -/

/-- The alphabet `encodeURL` of `base64.URLEncoding`. -/
def encodeURL : Bytes :=
  str "ABCDEFGHIJKLMNOPQRSTUVWXYZabcdefghijklmnopqrstuvwxyz0123456789-_"

/-- The padding character `StdPadding` of `base64.URLEncoding`. -/
def padChar : Nat := 61

/-- Table lookup `enc.encode[i]`. -/
def encodeByte (i : Nat) : Nat :=
  encodeURL.getD i 0

/-- Table lookup `enc.decodeMap[c]`: the position of `c` in the alphabet, and
`0xff` for every byte that is not in the alphabet. -/
def decodeMap (c : Nat) : Nat :=
  if c ∈ encodeURL then encodeURL.indexOf c else 0xff

/-- The method `Encoding.EncodeToString` of `base64.URLEncoding`: three source
bytes give four characters, and a final block of one or two bytes is padded
with `=`. -/
def EncodeToString : Bytes → Bytes
  | a :: b :: c :: rest =>
    let val := a <<< 16 ||| b <<< 8 ||| c
    encodeByte (val >>> 18 &&& 0x3F) :: encodeByte (val >>> 12 &&& 0x3F) ::
      encodeByte (val >>> 6 &&& 0x3F) :: encodeByte (val &&& 0x3F) :: EncodeToString rest
  | [a, b] =>
    let val := a <<< 16 ||| b <<< 8
    [encodeByte (val >>> 18 &&& 0x3F), encodeByte (val >>> 12 &&& 0x3F),
      encodeByte (val >>> 6 &&& 0x3F), padChar]
  | [a] =>
    let val := a <<< 16
    [encodeByte (val >>> 18 &&& 0x3F), encodeByte (val >>> 12 &&& 0x3F), padChar, padChar]
  | [] => []

/-- The error type `base64.CorruptInputError`: the offset of the offending byte. -/
structure CorruptInputError where
  offset : Int
  deriving DecidableEq, Repr

/-- The loop `for si < len(src) && (src[si] == '\n' || src[si] == '\r') { si++ }`
of `decodeQuantum`, on the position `si` and the input that remains there. -/
def skipNewlines (si : Nat) : Bytes → Nat × Bytes
  | [] => (si, [])
  | c :: rest => if c = 10 ∨ c = 13 then skipNewlines (si + 1) rest else (si, c :: rest)

/-- How the `for j` loop of `decodeQuantum` ends: with a `return` from inside
the loop (no byte produced), or by leaving the loop with `dlen` characters in
`dbuf`. -/
inductive QuantumLoop where
  | ret (si : Nat) (rest : Bytes) (err : Option CorruptInputError)
  | done (si : Nat) (rest : Bytes) (dbuf : List Nat) (dlen : Nat) (err : Option CorruptInputError)
  deriving DecidableEq, Repr

/-- The `for j := 0; j < len(dbuf); j++` loop of `Encoding.decodeQuantum`, for a
padded, non-strict encoding.  `si` is the index into the source and the list
argument is `src[si:]`. -/
def quantumLoop (j : Nat) (dbuf : List Nat) (si : Nat) : Bytes → QuantumLoop
  | [] =>
    if 4 ≤ j then .done si [] dbuf 4 none
    else if j = 0 then .ret si [] none
    else .ret si [] (some ⟨(si : Int) - j⟩)
  | c :: rest =>
    if 4 ≤ j then .done si (c :: rest) dbuf 4 none
    else
      let si1 := si + 1
      let out := decodeMap c
      if out ≠ 0xff then quantumLoop (j + 1) (dbuf.set j out) si1 rest
      else if c = 10 ∨ c = 13 then quantumLoop j dbuf si1 rest
      else if c ≠ padChar then .ret si1 rest (some ⟨(si1 : Int) - 1⟩)
      else if j = 0 ∨ j = 1 then .ret si1 rest (some ⟨(si1 : Int) - 1⟩)
      else if j = 2 then
        match skipNewlines si1 rest with
        | (si2, []) => .ret si2 [] (some ⟨(si2 : Int)⟩)
        | (si2, d :: rest2) =>
          if d ≠ padChar then .ret si2 (d :: rest2) (some ⟨(si2 : Int) - 1⟩)
          else
            match skipNewlines (si2 + 1) rest2 with
            | (si3, []) => .done si3 [] dbuf j none
            | (si3, e :: rest3) => .done si3 (e :: rest3) dbuf j (some ⟨(si3 : Int)⟩)
      else
        match skipNewlines si1 rest with
        | (si3, []) => .done si3 [] dbuf j none
        | (si3, e :: rest3) => .done si3 (e :: rest3) dbuf j (some ⟨(si3 : Int)⟩)

/-- The result of `decodeQuantum`: the new source index with the input that
remains, the bytes written to `dst` and counted in `n`, and the error. -/
structure Quantum where
  nsi : Nat
  rest : Bytes
  out : Bytes
  err : Option CorruptInputError
  deriving DecidableEq, Repr

/-- The method `Encoding.decodeQuantum`: decodes up to four base64 characters
into up to three bytes. -/
def decodeQuantum (si : Nat) (src : Bytes) : Quantum :=
  match quantumLoop 0 [0, 0, 0, 0] si src with
  | .ret nsi rest err => ⟨nsi, rest, [], err⟩
  | .done nsi rest dbuf dlen err =>
    let val := dbuf.getD 0 0 <<< 18 ||| dbuf.getD 1 0 <<< 12 ||| dbuf.getD 2 0 <<< 6 ||| dbuf.getD 3 0
    let b0 := val >>> 16 % 256
    let b1 := val >>> 8 % 256
    let b2 := val >>> 0 % 256
    ⟨nsi, rest, [b0, b1, b2].take (dlen - 1), err⟩

/-- The loop `for si < len(src)` of `Encoding.Decode`, one `decodeQuantum` per
turn; `fuel` bounds the number of turns.  (The 8- and 4-character fast paths of
`Decode` decode the same characters to the same bytes and fall back to
`decodeQuantum` otherwise.) -/
def decodeLoop : Nat → Nat → Bytes → Bytes → Bytes × Option CorruptInputError
  | 0, _, _, dst => (dst, none)
  | _ + 1, _, [], dst => (dst, none)
  | fuel + 1, si, c :: rest, dst =>
    let q := decodeQuantum si (c :: rest)
    match q.err with
    | some e => (dst ++ q.out, some e)
    | none => decodeLoop fuel q.nsi q.rest (dst ++ q.out)

/-- The method `Encoding.DecodeString` of `base64.URLEncoding`: the decoded
bytes `dbuf[:n]` and the error. -/
def DecodeString (s : Bytes) : Bytes × Option CorruptInputError :=
  decodeLoop s.length 0 s []

/-! ## `crypto/sha1` and `crypto/hmac` -/

/-- A `uint32` result: reduction modulo `2 ^ 32`. -/
def u32 (x : Nat) : Nat := x % 2 ^ 32

/-- The function `bits.RotateLeft32` for a rotation `0 < k < 32`. -/
def RotateLeft32 (x k : Nat) : Nat :=
  u32 (x <<< k) ||| x >>> (32 - k)

/-- Bitwise complement `^b` of a `uint32`. -/
def not32 (b : Nat) : Nat := b ^^^ 0xFFFFFFFF

/-- The five chaining words `h0 .. h4` of a SHA-1 digest, also used for the
working variables `a .. e`. -/
structure Words5 where
  a : Nat
  b : Nat
  c : Nat
  d : Nat
  e : Nat
  deriving DecidableEq, Repr

/-- The initial chaining value set by `digest.Reset`. -/
def sha1Init : Words5 :=
  ⟨0x67452301, 0xEFCDAB89, 0x98BADCFE, 0x10325476, 0xC3D2E1F0⟩

/-- Big-endian load of the `i`-th 32-bit word of a block. -/
def loadWord (p : Bytes) (i : Nat) : Nat :=
  p.getD (4 * i) 0 <<< 24 ||| p.getD (4 * i + 1) 0 <<< 16 |||
    p.getD (4 * i + 2) 0 <<< 8 ||| p.getD (4 * i + 3) 0

/-- One of the eighty rounds of `blockGeneric`: the update of the 16-word
schedule `w` (from round 16 on) and of the working variables. -/
def sha1Round (s : List Nat × Words5) (i : Nat) : List Nat × Words5 :=
  let w0 := s.1
  let v := s.2
  let w :=
    if i < 16 then w0
    else
      let tmp := w0.getD ((i - 3) &&& 0xf) 0 ^^^ w0.getD ((i - 8) &&& 0xf) 0 ^^^
        w0.getD ((i - 14) &&& 0xf) 0 ^^^ w0.getD (i &&& 0xf) 0
      w0.set (i &&& 0xf) (RotateLeft32 tmp 1)
  let f :=
    if i < 20 then v.b &&& v.c ||| not32 v.b &&& v.d
    else if i < 40 then v.b ^^^ v.c ^^^ v.d
    else if i < 60 then ((v.b ||| v.c) &&& v.d) ||| (v.b &&& v.c)
    else v.b ^^^ v.c ^^^ v.d
  let k :=
    if i < 20 then 0x5A827999
    else if i < 40 then 0x6ED9EBA1
    else if i < 60 then 0x8F1BBCDC
    else 0xCA62C1D6
  let t := u32 (RotateLeft32 v.a 5 + f + v.e + w.getD (i &&& 0xf) 0 + k)
  (w, ⟨t, v.a, RotateLeft32 v.b 30, v.c, v.d⟩)

/-- The body of the `for len(p) >= chunk` loop of `blockGeneric`: one 64-byte
block folded into the chaining value. -/
def sha1Block (h : Words5) (p : Bytes) : Words5 :=
  let w := (List.range 16).map (loadWord p)
  let r := (List.range 80).foldl sha1Round (w, h)
  ⟨u32 (h.a + r.2.a), u32 (h.b + r.2.b), u32 (h.c + r.2.c), u32 (h.d + r.2.d),
    u32 (h.e + r.2.e)⟩

/-- The loop of `blockGeneric` over `n` consecutive 64-byte blocks of `p`. -/
def sha1Blocks : Nat → Words5 → Bytes → Words5
  | 0, h, _ => h
  | n + 1, h, p => sha1Blocks n (sha1Block h (p.take 64)) (p.drop 64)

/-- Big-endian bytes of a word, `width` bytes wide. -/
def bigEndian : Nat → Nat → Bytes
  | 0, _ => []
  | width + 1, x => (x >>> (8 * width) % 256) :: bigEndian width x

/-- The padding written by `digest.checkSum`: a `0x80` byte, zero bytes up to
56 modulo 64, and the message length in bits as a big-endian `uint64`. -/
def sha1Padding (len : Nat) : Bytes :=
  let t := if len % 64 < 56 then 56 - len % 64 else 64 + 56 - len % 64
  0x80 :: List.replicate (t - 1) 0 ++ bigEndian 8 (len <<< 3 % 2 ^ 64)

/-- The SHA-1 digest of a message (`sha1.New`, `Write`, `Sum(nil)`): 20 bytes. -/
def sha1Sum (msg : Bytes) : Bytes :=
  let p := msg ++ sha1Padding msg.length
  let h := sha1Blocks (p.length / 64) sha1Init p
  bigEndian 4 h.a ++ bigEndian 4 h.b ++ bigEndian 4 h.c ++ bigEndian 4 h.d ++ bigEndian 4 h.e

/-- The block size of SHA-1 in bytes. -/
def sha1BlockSize : Nat := 64

/-- The key block prepared by `hmac.New`: a key longer than the block size is
replaced by its digest, and the key is right-padded with zero bytes to the block
size. -/
def hmacKeyBlock (key : Bytes) : Bytes :=
  let k := if sha1BlockSize < key.length then sha1Sum key else key
  k ++ List.replicate (sha1BlockSize - k.length) 0

/-- The HMAC-SHA1 tag computed by `hmac.New(sha1.New, key)`, `Write(msg)` and
`Sum(nil)`: the outer hash of `opad` and the inner digest of `ipad` and the
message. -/
def hmacSHA1 (key msg : Bytes) : Bytes :=
  let kb := hmacKeyBlock key
  let ipad := kb.map fun b => b ^^^ 0x36
  let opad := kb.map fun b => b ^^^ 0x5c
  sha1Sum (opad ++ sha1Sum (ipad ++ msg))

/-! ## `strings` helpers used by `net/url` -/

/-- The function `strings.HasPrefix`. -/
def HasPrefix (s pre : Bytes) : Bool := pre.isPrefixOf s

/-- The function `strings.HasSuffix`. -/
def HasSuffix (s suf : Bytes) : Bool := suf.isSuffixOf s

/-- The function `strings.Index`; `none` stands for the result `-1`. -/
def Index (s sep : Bytes) : Option Nat :=
  match s with
  | [] => if sep = [] then some 0 else none
  | c :: rest =>
    if sep.isPrefixOf (c :: rest) then some 0 else (Index rest sep).map (· + 1)

/-- The function `strings.LastIndex`; `none` stands for the result `-1`. -/
def LastIndex (s sep : Bytes) : Option Nat :=
  match s with
  | [] => if sep = [] then some 0 else none
  | c :: rest =>
    match LastIndex rest sep with
    | some i => some (i + 1)
    | none => if sep.isPrefixOf (c :: rest) then some 0 else none

/-- The function `strings.Cut`: the text before and after the first instance of
`sep`, and whether `sep` was found. -/
def Cut (s sep : Bytes) : Bytes × Bytes × Bool :=
  match Index s sep with
  | some i => (s.take i, s.drop (i + sep.length), true)
  | none => (s, [], false)

/-- The function `strings.Count` for a separator of one byte. -/
def Count (s : Bytes) (c : Nat) : Nat := s.count c

/-- The function `strings.Contains`. -/
def Contains (s sub : Bytes) : Bool := (Index s sub).isSome

/-- The function `strings.ToLower` on ASCII text (a scheme is ASCII). -/
def ToLower (s : Bytes) : Bytes :=
  s.map fun c => if 65 ≤ c ∧ c ≤ 90 then c + 32 else c

/-! ## `net/url`: `Parse`

The parser as in Go 1.21: `Parse`, `parse`, `getScheme`, `parseAuthority`,
`parseHost`, `unescape` and the predicates they call. -/

deriving instance DecidableEq for Except

/-- The errors raised inside `url.Parse`. -/
inductive ParseError where
  /-- The text `net/url: invalid control character in URL`. -/
  | invalidControlCharacter
  /-- The text `missing protocol scheme`. -/
  | missingProtocolScheme
  /-- The text `first path segment in URL cannot contain colon`. -/
  | firstPathSegmentColon
  /-- The text `missing ']' in host`. -/
  | missingBracketInHost
  /-- The text `invalid port %q after host`. -/
  | invalidPort (colonPort : Bytes)
  /-- The text `net/url: invalid userinfo`. -/
  | invalidUserinfo
  /-- The type `url.EscapeError`. -/
  | EscapeError (s : Bytes)
  /-- The type `url.InvalidHostError`. -/
  | InvalidHostError (s : Bytes)
  deriving DecidableEq, Repr

/-- The type `url.Error`: the operation, the URL text, and the cause. -/
structure UrlError where
  Op : Bytes
  URL : Bytes
  Err : ParseError
  deriving DecidableEq, Repr

/-- The type `url.Userinfo`. -/
structure Userinfo where
  username : Bytes
  password : Bytes
  passwordSet : Bool
  deriving DecidableEq, Repr

/-- The type `url.URL`, without the encoding hints `RawPath` and `RawFragment`
(they need `escape`, and `SignURL` does not read them). -/
structure URL where
  Scheme : Bytes := []
  Opaque : Bytes := []
  User : Option Userinfo := none
  Host : Bytes := []
  Path : Bytes := []
  OmitHost : Bool := false
  ForceQuery : Bool := false
  RawQuery : Bytes := []
  Fragment : Bytes := []
  deriving DecidableEq, Repr

/-- The modes of `unescape` that `Parse` uses. -/
inductive Encoding where
  | encodePath
  | encodeHost
  | encodeZone
  | encodeUserPassword
  | encodeFragment
  deriving DecidableEq, Repr

/-- The function `ishex`. -/
def ishex (c : Nat) : Bool :=
  (48 ≤ c ∧ c ≤ 57) ∨ (97 ≤ c ∧ c ≤ 102) ∨ (65 ≤ c ∧ c ≤ 70)

/-- The function `unhex`. -/
def unhex (c : Nat) : Nat :=
  if 48 ≤ c ∧ c ≤ 57 then c - 48
  else if 97 ≤ c ∧ c ≤ 102 then c - 97 + 10
  else if 65 ≤ c ∧ c ≤ 70 then c - 65 + 10
  else 0

/-- The function `shouldEscape` in mode `encodeHost`: letters, digits, the
characters ``!$&'()*+,;=:[]<>"`` and `-_.~` stay unescaped in a host. -/
def shouldEscapeHost (c : Nat) : Bool :=
  if (97 ≤ c ∧ c ≤ 122) ∨ (65 ≤ c ∧ c ≤ 90) ∨ (48 ≤ c ∧ c ≤ 57) then false
  else if c ∈ str "!$&'()*+,;=:[]<>\"" then false
  else if c ∈ str "-_.~" then false
  else true

/-- The first loop of `unescape`: checks that every `%` starts a well-formed
escape, and in a host that no byte needs escaping. -/
def unescapeCheck (mode : Encoding) : Bytes → Option ParseError
  | [] => none
  | c :: rest =>
    if c = 37 then
      match rest with
      | a :: b :: rest2 =>
        if !ishex a || !ishex b then some (.EscapeError [c, a, b])
        else if mode = .encodeHost ∧ unhex a < 8 ∧ [c, a, b] ≠ str "%25" then
          some (.EscapeError [c, a, b])
        else if mode = .encodeZone ∧ [c, a, b] ≠ str "%25" ∧ (unhex a <<< 4 ||| unhex b) ≠ 32 ∧
            shouldEscapeHost (unhex a <<< 4 ||| unhex b) then
          some (.EscapeError [c, a, b])
        else unescapeCheck mode rest2
      | _ => some (.EscapeError (c :: rest))
    else if (mode = .encodeHost ∨ mode = .encodeZone) ∧ c < 0x80 ∧ shouldEscapeHost c then
      some (.InvalidHostError [c])
    else unescapeCheck mode rest

/-- The second loop of `unescape`: replaces each `%XX` by the byte it denotes. -/
def unescapeBuild : Bytes → Bytes
  | [] => []
  | c :: rest =>
    if c = 37 then
      match rest with
      | a :: b :: rest2 => (unhex a <<< 4 ||| unhex b) :: unescapeBuild rest2
      | _ => []
    else c :: unescapeBuild rest

/-- The function `unescape` for the modes of `Parse`. -/
def unescape (s : Bytes) (mode : Encoding) : Except ParseError Bytes :=
  match unescapeCheck mode s with
  | some e => .error e
  | none => .ok (unescapeBuild s)

/-- The function `stringContainsCTLByte`. -/
def stringContainsCTLByte (s : Bytes) : Bool :=
  s.any fun b => b < 32 ∨ b = 0x7f

/-- The loop of `getScheme` at index `i`, on `rawURL[i:]`. -/
def getSchemeLoop (rawURL : Bytes) (i : Nat) : Bytes → Except ParseError (Bytes × Bytes)
  | [] => .ok ([], rawURL)
  | c :: rest =>
    if (97 ≤ c ∧ c ≤ 122) ∨ (65 ≤ c ∧ c ≤ 90) then getSchemeLoop rawURL (i + 1) rest
    else if (48 ≤ c ∧ c ≤ 57) ∨ c = 43 ∨ c = 45 ∨ c = 46 then
      if i = 0 then .ok ([], rawURL) else getSchemeLoop rawURL (i + 1) rest
    else if c = 58 then
      if i = 0 then .error .missingProtocolScheme else .ok (rawURL.take i, rest)
    else .ok ([], rawURL)

/-- The function `getScheme`: splits off a leading `scheme:`. -/
def getScheme (rawURL : Bytes) : Except ParseError (Bytes × Bytes) :=
  getSchemeLoop rawURL 0 rawURL

/-- The function `validOptionalPort`: empty, or `:` followed by digits. -/
def validOptionalPort (port : Bytes) : Bool :=
  match port with
  | [] => true
  | c :: rest => c = 58 ∧ rest.all fun b => 48 ≤ b ∧ b ≤ 57

/-- The function `validUserinfo`. -/
def validUserinfo (s : Bytes) : Bool :=
  s.all fun r =>
    (65 ≤ r ∧ r ≤ 90) ∨ (97 ≤ r ∧ r ≤ 122) ∨ (48 ≤ r ∧ r ≤ 57) ∨
      r ∈ str "-._:~!$&'()*+,;=%@"

/-- The function `parseHost`, as in Go 1.21.  Later releases of Go are stricter
about bracketed hosts (they look for `[` anywhere in the host and require an
IPv6 literal between the brackets), so some hosts with `[` that are accepted
here are rejected there. -/
def parseHost (host : Bytes) : Except ParseError Bytes :=
  if HasPrefix host (str "[") then
    match LastIndex host (str "]") with
    | none => .error .missingBracketInHost
    | some i =>
      let colonPort := host.drop (i + 1)
      if !validOptionalPort colonPort then .error (.invalidPort colonPort)
      else
        match Index (host.take i) (str "%25") with
        | some zone =>
          match unescape (host.take zone) .encodeHost with
          | .error e => .error e
          | .ok host1 =>
            match unescape ((host.take i).drop zone) .encodeZone with
            | .error e => .error e
            | .ok host2 =>
              match unescape (host.drop i) .encodeHost with
              | .error e => .error e
              | .ok host3 => .ok (host1 ++ host2 ++ host3)
        | none => unescape host .encodeHost
  else
    match LastIndex host (str ":") with
    | some i =>
      let colonPort := host.drop i
      if !validOptionalPort colonPort then .error (.invalidPort colonPort)
      else unescape host .encodeHost
    | none => unescape host .encodeHost

/-- The function `parseAuthority`: `[userinfo@]host`. -/
def parseAuthority (authority : Bytes) : Except ParseError (Option Userinfo × Bytes) :=
  let i := LastIndex authority (str "@")
  let hostRes :=
    match i with
    | none => parseHost authority
    | some i => parseHost (authority.drop (i + 1))
  match hostRes with
  | .error e => .error e
  | .ok host =>
    match i with
    | none => .ok (none, host)
    | some i =>
      let userinfo := authority.take i
      if !validUserinfo userinfo then .error .invalidUserinfo
      else if !Contains userinfo (str ":") then
        match unescape userinfo .encodeUserPassword with
        | .error e => .error e
        | .ok userinfo => .ok (some ⟨userinfo, [], false⟩, host)
      else
        let c := Cut userinfo (str ":")
        match unescape c.1 .encodeUserPassword with
        | .error e => .error e
        | .ok username =>
          match unescape c.2.1 .encodeUserPassword with
          | .error e => .error e
          | .ok password => .ok (some ⟨username, password, true⟩, host)

/-- The function `parse` with `viaRequest = false`. -/
def parse (rawURL : Bytes) : Except ParseError URL :=
  if stringContainsCTLByte rawURL then .error .invalidControlCharacter
  else if rawURL = str "*" then .ok { Path := str "*" }
  else
    match getScheme rawURL with
    | .error e => .error e
    | .ok (scheme0, rest0) =>
      let scheme := ToLower scheme0
      let force := HasSuffix rest0 (str "?") && Count rest0 63 == 1
      let rest := if force then rest0.take (rest0.length - 1) else (Cut rest0 (str "?")).1
      let rawQuery := if force then [] else (Cut rest0 (str "?")).2.1
      if !HasPrefix rest (str "/") ∧ scheme ≠ [] then
        .ok { Scheme := scheme, Opaque := rest, ForceQuery := force, RawQuery := rawQuery }
      else if !HasPrefix rest (str "/") ∧ Contains (Cut rest (str "/")).1 (str ":") then
        .error .firstPathSegmentColon
      else if (scheme ≠ [] ∨ !HasPrefix rest (str "///")) ∧ HasPrefix rest (str "//") then
        let authority0 := rest.drop 2
        let authority :=
          match Index authority0 (str "/") with
          | some i => authority0.take i
          | none => authority0
        let rest2 :=
          match Index authority0 (str "/") with
          | some i => authority0.drop i
          | none => []
        match parseAuthority authority with
        | .error e => .error e
        | .ok (user, host) =>
          match unescape rest2 .encodePath with
          | .error e => .error e
          | .ok path =>
            .ok { Scheme := scheme, User := user, Host := host, Path := path,
                  ForceQuery := force, RawQuery := rawQuery }
      else
        match unescape rest .encodePath with
        | .error e => .error e
        | .ok path =>
          .ok { Scheme := scheme, Path := path,
                OmitHost := decide (scheme ≠ []) && HasPrefix rest (str "/"),
                ForceQuery := force, RawQuery := rawQuery }

/-- The function `url.Parse`: cuts off the fragment, parses the rest, and
unescapes the fragment (`setFragment`). -/
def Parse (rawURL : Bytes) : Except UrlError URL :=
  let c := Cut rawURL (str "#")
  match parse c.1 with
  | .error e => .error ⟨str "parse", c.1, e⟩
  | .ok url =>
    if c.2.1 = [] then .ok url
    else
      match unescape c.2.1 .encodeFragment with
      | .error e => .error ⟨str "parse", rawURL, e⟩
      | .ok frag => .ok { url with Fragment := frag }

/-! ## `github.com/pkg/errors` and `SignURL` -/

/-- The errors that reach `errors.Wrap` in `SignURL`. -/
inductive Cause where
  | base64 (e : CorruptInputError)
  | url (e : UrlError)
  deriving DecidableEq, Repr

/-- The error built by `errors.Wrap(err, message)`: the cause and the message
put in front of it (`Error()` is `message ++ ": " ++ cause`).  The recorded
call stack is left out. -/
structure WrappedError where
  cause : Cause
  msg : Bytes
  deriving DecidableEq, Repr

/-- The function `SignURL`: signs a request URL with a URL signing secret and
returns the URL with the signature appended, as the Go pair `(string, error)`. -/
def SignURL (mapUrl key : Bytes) : Bytes × Option WrappedError :=
  match DecodeString key with
  | (_, some err) => ([], some ⟨.base64 err, str "failed parsing key"⟩)
  | (usableKey, none) =>
    match Parse mapUrl with
    | .error err => ([], some ⟨.url err, str "failed parsing url"⟩)
    | .ok u =>
      let toSign := u.Path ++ str "?" ++ u.RawQuery
      let sig := EncodeToString (hmacSHA1 usableKey toSign)
      let signed := u.Scheme ++ str "://" ++ u.Host ++ u.Path ++ str "?" ++ u.RawQuery ++
        str "&signature=" ++ sig
      (signed, none)

/-! ## Notions of the specification -/

/-- The signing payload of §4.1 step 3: `<path>?<rawQuery>`. -/
def payload (u : URL) : Bytes :=
  u.Path ++ str "?" ++ u.RawQuery

/-- The signature of §4.1 steps 4 and 5: the base64url text of the HMAC-SHA1
tag of the payload under the decoded secret. -/
def signature (k : Bytes) (u : URL) : Bytes :=
  EncodeToString (hmacSHA1 k (payload u))

/-- The reassembly of §4.1 step 6, up to and including the raw query:
`<scheme>://<host><path>?<rawQuery>`. -/
def reassembled (u : URL) : Bytes :=
  u.Scheme ++ str "://" ++ u.Host ++ u.Path ++ str "?" ++ u.RawQuery

/-- What a verifier reads from a signed URL: the text that follows the last
occurrence of `pat`, if `pat` occurs at all. -/
def afterLast (pat : Bytes) : Bytes → Option Bytes
  | [] => if pat = [] then some [] else none
  | c :: rest =>
    match afterLast pat rest with
    | some r => some r
    | none => if pat.isPrefixOf (c :: rest) then some ((c :: rest).drop pat.length) else none

/-- A key text with the characters CR and LF removed. -/
def stripNewlines (s : Bytes) : Bytes :=
  s.filter fun c => !decide (c = 10 ∨ c = 13)

/-- Membership in the URL-safe base64 alphabet. -/
def inAlphabet (c : Nat) : Bool := decide (c ∈ encodeURL)

/-- Padded base64url text: groups of four characters of the alphabet, where
the last group may end in `=` or `==`. -/
def wellPadded : Bytes → Bool
  | [] => true
  | [a, b, c, d] =>
    inAlphabet a && inAlphabet b &&
      ((inAlphabet c && inAlphabet d) || (inAlphabet c && d == 61) || (c == 61 && d == 61))
  | a :: b :: c :: d :: rest =>
    inAlphabet a && inAlphabet b && inAlphabet c && inAlphabet d && wellPadded rest
  | _ => false

/-- A valid key text: padded base64url once CR and LF are disregarded. -/
def validKey (key : Bytes) : Bool := wellPadded (stripNewlines key)

/-- What a loop of `decodeQuantum` that ends without error has read. -/
def QuantumOk (j : Nat) (src : Bytes) : QuantumLoop → Prop
  | .ret _ rest none => j = 0 ∧ stripNewlines src = [] ∧ rest = []
  | .done _ rest _ dlen none =>
    ∃ g : Bytes, (∀ x ∈ g, x ∈ encodeURL) ∧ j + g.length = dlen ∧
      stripNewlines src = g ++ List.replicate (4 - dlen) 61 ++ stripNewlines rest ∧
      2 ≤ dlen ∧ dlen ≤ 4 ∧ (dlen < 4 → rest = []) ∧ rest.length + g.length ≤ src.length
  | _ => True

/-- A lower-case scheme: a letter followed by letters, digits, `+`, `-`, `.`. -/
def plainScheme (s : Bytes) : Bool :=
  match s with
  | [] => false
  | c :: rest =>
    (97 ≤ c ∧ c ≤ 122) ∧
      rest.all fun b => (97 ≤ b ∧ b ≤ 122) ∨ (48 ≤ b ∧ b ≤ 57) ∨ b = 43 ∨ b = 45 ∨ b = 46

/-- A host name written without escapes: no `:` and no `[`, and every byte is
non-ASCII or may stand unescaped in a host. -/
def plainHost (h : Bytes) : Bool :=
  h.all fun b => b ≠ 58 ∧ b ≠ 91 ∧ (0x80 ≤ b ∨ !shouldEscapeHost b)

/-- An optional port: empty, or `:` followed by digits. -/
def plainPort (p : Bytes) : Bool :=
  match p with
  | [] => true
  | c :: rest => c = 58 ∧ rest.all fun b => 48 ≤ b ∧ b ≤ 57

/-- A path written without escapes: empty or starting with `/`, with no control
byte, `%`, `?` or `#`. -/
def plainPath (p : Bytes) : Bool :=
  (p = [] ∨ p.head? = some 47) ∧
    p.all fun b => 32 ≤ b ∧ b ≠ 0x7f ∧ b ≠ 37 ∧ b ≠ 63 ∧ b ≠ 35

/-- A raw query without control byte or `#`. -/
def plainQuery (q : Bytes) : Bool :=
  q.all fun b => 32 ≤ b ∧ b ≠ 0x7f ∧ b ≠ 35

/-- The inner padded key of HMAC: the key block with every byte xored with
`0x36` (`ipad`). -/
def hmacInnerPad (key : Bytes) : Bytes :=
  (hmacKeyBlock key).map fun b => b ^^^ 0x36

/-- The outer padded key of HMAC: the key block with every byte xored with
`0x5c` (`opad`). -/
def hmacOuterPad (key : Bytes) : Bytes :=
  (hmacKeyBlock key).map fun b => b ^^^ 0x5c

/-- The query portion of a URL text as written: with the fragment (the text
from the first `#` on) set aside, the text after the first `?`; empty when there
is no `?`. -/
def queryPortion (rawURL : Bytes) : Bytes :=
  (Cut (Cut rawURL (str "#")).1 (str "?")).2.1

/-- A text whose every `%` is followed by two hexadecimal digits. -/
def wellEscaped : Bytes → Bool
  | [] => true
  | c :: rest =>
    if c = 37 then
      match rest with
      | a :: b :: rest2 => ishex a && ishex b && wellEscaped rest2
      | _ => false
    else wellEscaped rest

/-- A path as written, possibly with percent-escapes: empty or starting with
`/`, with no control byte, `?` or `#`, and with well-formed escapes. -/
def escapedPath (p : Bytes) : Bool :=
  (p = [] ∨ p.head? = some 47) ∧
    (p.all fun b => 32 ≤ b ∧ b ≠ 0x7f ∧ b ≠ 63 ∧ b ≠ 35) ∧ wellEscaped p

/-- The characters of the URL grammar (RFC 3986): letters, digits, the marks
`-._~`, the delimiters `:/?#[]@` and `!$&'()*+,;=`, and `%`. -/
def urlCharacter (b : Nat) : Bool :=
  (97 ≤ b ∧ b ≤ 122) ∨ (65 ≤ b ∧ b ≤ 90) ∨ (48 ≤ b ∧ b ≤ 57) ∨
    b ∈ str "-._~:/?#[]@!$&'()*+,;=%"

/-- A necessary condition for a text to conform to the URL grammar: it holds
characters of the grammar only. -/
def onlyURLCharacters (s : Bytes) : Bool := s.all urlCharacter

/-- A URL text followed by an optional fragment `#f`. -/
def withFragment (s : Bytes) (f : Option Bytes) : Bytes :=
  match f with
  | none => s
  | some f => s ++ 35 :: f

/-- An optional query `?q` as written. -/
def queryTail (q : Option Bytes) : Bytes :=
  match q with
  | none => []
  | some q => 63 :: q

/-- The text `scheme://authority path` followed by an optional query `?q`. -/
def hierarchical (scheme authority path : Bytes) (q : Option Bytes) : Bytes :=
  scheme ++ str "://" ++ authority ++ path ++ queryTail q

/-- The text of an authority: no control byte, `/`, `?` or `#`. -/
def authorityText (a : Bytes) : Bool :=
  a.all fun b => 32 ≤ b ∧ b ≠ 0x7f ∧ b ≠ 47 ∧ b ≠ 63 ∧ b ≠ 35

/-- The text of a path: empty or starting with `/`, with no control byte, `?`
or `#`. -/
def pathText (p : Bytes) : Bool :=
  (p = [] ∨ p.head? = some 47) ∧ p.all fun b => 32 ≤ b ∧ b ≠ 0x7f ∧ b ≠ 63 ∧ b ≠ 35

/-- Ways in which a URL text is malformed: a control character before the
fragment; a leading `:`; in a text `scheme://authority path ?query #fragment`, a
host that opens `[` and never closes it, a port (without `:`, `@` and `[`) that
is not a number, or a `%` in the path that is not followed by two hexadecimal
digits; such a `%` in the fragment. -/
inductive MalformedURL : Bytes → Prop where
  | controlCharacter (s : Bytes) (f : Option Bytes) (b : Nat) (hs : 35 ∉ s) (hb : b ∈ s)
      (hc : b < 32 ∨ b = 0x7f) : MalformedURL (withFragment s f)
  | leadingColon (s : Bytes) (f : Option Bytes) (hs : 35 ∉ s) :
      MalformedURL (withFragment (58 :: s) f)
  | unclosedBracket (scheme a path : Bytes) (q f : Option Bytes)
      (hs : plainScheme scheme = true) (ha : authorityText a = true) (h1 : 93 ∉ a)
      (h2 : 64 ∉ a) (hp : pathText path = true) (hq : plainQuery (q.getD []) = true) :
      MalformedURL (withFragment (hierarchical scheme (91 :: a) path q) f)
  | invalidPort (scheme hostname ds path : Bytes) (q f : Option Bytes)
      (hs : plainScheme scheme = true) (hh : plainHost hostname = true)
      (hd : authorityText ds = true) (h1 : 58 ∉ ds) (h2 : 64 ∉ ds) (h4 : 91 ∉ ds)
      (h3 : (ds.all fun b => 48 ≤ b ∧ b ≤ 57) = false)
      (hp : pathText path = true) (hq : plainQuery (q.getD []) = true) :
      MalformedURL (withFragment (hierarchical scheme (hostname ++ 58 :: ds) path q) f)
  | pathEscape (scheme hostname port path : Bytes) (q f : Option Bytes)
      (hs : plainScheme scheme = true) (hh : plainHost hostname = true)
      (hpo : plainPort port = true) (hp : pathText path = true)
      (he : wellEscaped path = false) (hq : plainQuery (q.getD []) = true) :
      MalformedURL (withFragment (hierarchical scheme (hostname ++ port) path q) f)
  | fragmentEscape (s f : Bytes) (hs : 35 ∉ s) (he : wellEscaped f = false) :
      MalformedURL (withFragment s (some f))

/-! ## The two outcomes of `SignURL` -/

theorem SignURL_of_ok {rawURL key k : Bytes} {u : URL}
    (hk : DecodeString key = (k, none)) (hu : Parse rawURL = .ok u) :
    SignURL rawURL key = (reassembled u ++ str "&signature=" ++ signature k u, none) := by
  simp only [SignURL, hk, hu, signature, payload, reassembled]

theorem SignURL_of_key_error {key : Bytes} {e : CorruptInputError} (rawURL : Bytes)
    (hk : (DecodeString key).2 = some e) :
    SignURL rawURL key = ([], some ⟨.base64 e, str "failed parsing key"⟩) := by
  unfold SignURL
  rcases hd : DecodeString key with ⟨b, o⟩
  rw [hd] at hk
  simp only at hk
  subst hk
  rfl

theorem SignURL_of_url_error {rawURL key k : Bytes} {e : UrlError}
    (hk : DecodeString key = (k, none)) (hu : Parse rawURL = .error e) :
    SignURL rawURL key = ([], some ⟨.url e, str "failed parsing url"⟩) := by
  simp only [SignURL, hk, hu]

/-- The three ways a call of `SignURL` can go. -/
theorem SignURL_cases (rawURL key : Bytes) :
    (∃ e, (DecodeString key).2 = some e ∧
        SignURL rawURL key = ([], some ⟨.base64 e, str "failed parsing key"⟩)) ∨
    (∃ k e, DecodeString key = (k, none) ∧ Parse rawURL = .error e ∧
        SignURL rawURL key = ([], some ⟨.url e, str "failed parsing url"⟩)) ∨
    (∃ k u, DecodeString key = (k, none) ∧ Parse rawURL = .ok u ∧
        SignURL rawURL key = (reassembled u ++ str "&signature=" ++ signature k u, none)) := by
  rcases hd : DecodeString key with ⟨k, o⟩
  cases o with
  | some e =>
    exact Or.inl ⟨e, rfl, SignURL_of_key_error rawURL (by rw [hd])⟩
  | none =>
    cases hp : Parse rawURL with
    | error e => exact Or.inr (Or.inl ⟨k, e, rfl, rfl, SignURL_of_url_error hd hp⟩)
    | ok u => exact Or.inr (Or.inr ⟨k, u, rfl, rfl, SignURL_of_ok hd hp⟩)

theorem reassembled_ne_nil (u : URL) : reassembled u ≠ [] := by
  intro h
  have h2 := congrArg List.length h
  simp [reassembled, str, utf8] at h2

/-! ## C1: the output format -/

/-- C1: when the key decodes to `k` and the URL parses to `u`, `SignURL` returns
no error and exactly `scheme://host path ? rawQuery &signature=` followed by
the base64url text of HMAC-SHA1 of `path ? rawQuery` under `k`. -/
theorem SignURL_output_format (rawURL key k : Bytes) (u : URL)
    (hk : DecodeString key = (k, none)) (hu : Parse rawURL = .ok u) :
    SignURL rawURL key =
      (u.Scheme ++ str "://" ++ u.Host ++ u.Path ++ str "?" ++ u.RawQuery ++
        str "&signature=" ++
        EncodeToString (hmacSHA1 k (u.Path ++ str "?" ++ u.RawQuery)), none) :=
  SignURL_of_ok hk hu

set_option maxRecDepth 100000 in
/-- C1 at the concrete scenario of the specification. -/
theorem SignURL_output_format_witness :
    SignURL (str "https://maps.example.com/maps/api/geocode/json?address=test")
        (str "AAAAAAAAAAAAAAAAAAAAAA==") =
      (str "https://maps.example.com/maps/api/geocode/json?address=test&signature=XWUDmt0t3wAtw-HlbbdMi94xIXc=",
        none) :=
  (SignURL_output_format
    (str "https://maps.example.com/maps/api/geocode/json?address=test")
    (str "AAAAAAAAAAAAAAAAAAAAAA==") (List.replicate 16 0)
    { Scheme := str "https", Host := str "maps.example.com",
      Path := str "/maps/api/geocode/json", RawQuery := str "address=test" }
    (by decide) (by decide)).trans (by decide)

/-! ## C2: the appended signature can be read back -/

theorem getD_mem_cons (l : List Nat) (i d : Nat) : l.getD i d ∈ d :: l := by
  induction l generalizing i with
  | nil => simp
  | cons x xs ih =>
    cases i with
    | zero => simp
    | succ n =>
      have h := ih n
      simp only [List.getD_cons_succ, List.mem_cons] at h ⊢
      rcases h with h | h
      · exact Or.inl h
      · exact Or.inr (Or.inr h)

theorem encodeByte_mem (i : Nat) : encodeByte i ∈ 0 :: encodeURL :=
  getD_mem_cons encodeURL i 0

/-- Every character of a base64url text is `=`, a character of the alphabet,
or the zero value of an out-of-range table lookup. -/
theorem EncodeToString_mem : ∀ (b : Bytes) (x : Nat),
    x ∈ EncodeToString b → x ∈ padChar :: 0 :: encodeURL
  | [], x, h => by simp [EncodeToString] at h
  | [a], x, h => by
    simp only [EncodeToString, List.mem_cons, List.mem_singleton, List.not_mem_nil,
      or_false] at h
    rcases h with h | h | h | h
    · exact List.mem_cons_of_mem _ (h ▸ encodeByte_mem _)
    · exact List.mem_cons_of_mem _ (h ▸ encodeByte_mem _)
    · exact h ▸ List.mem_cons_self _ _
    · exact h ▸ List.mem_cons_self _ _
  | [a, b], x, h => by
    simp only [EncodeToString, List.mem_cons, List.mem_singleton, List.not_mem_nil,
      or_false] at h
    rcases h with h | h | h | h
    · exact List.mem_cons_of_mem _ (h ▸ encodeByte_mem _)
    · exact List.mem_cons_of_mem _ (h ▸ encodeByte_mem _)
    · exact List.mem_cons_of_mem _ (h ▸ encodeByte_mem _)
    · exact h ▸ List.mem_cons_self _ _
  | a :: b :: c :: rest, x, h => by
    simp only [EncodeToString, List.mem_cons] at h
    rcases h with h | h | h | h | h
    · exact List.mem_cons_of_mem _ (h ▸ encodeByte_mem _)
    · exact List.mem_cons_of_mem _ (h ▸ encodeByte_mem _)
    · exact List.mem_cons_of_mem _ (h ▸ encodeByte_mem _)
    · exact List.mem_cons_of_mem _ (h ▸ encodeByte_mem _)
    · exact EncodeToString_mem rest x h

theorem amp_not_mem_EncodeToString (b : Bytes) : 38 ∉ EncodeToString b := by
  intro h
  have h2 := EncodeToString_mem b 38 h
  revert h2
  decide

theorem afterLast_none_of_not_mem (c : Nat) (p : Bytes) :
    ∀ s : Bytes, c ∉ s → afterLast (c :: p) s = none
  | [], _ => by simp [afterLast]
  | x :: s, h => by
    have hx : c ≠ x := fun e => h (e ▸ List.mem_cons_self _ _)
    have hs : c ∉ s := fun e => h (List.mem_cons_of_mem _ e)
    simp [afterLast, afterLast_none_of_not_mem c p s hs, List.isPrefixOf, hx]

theorem isPrefixOf_append_self (p s : Bytes) : p.isPrefixOf (p ++ s) = true := by
  induction p with
  | nil => simp [List.isPrefixOf]
  | cons x xs ih => simp [List.isPrefixOf, ih]

theorem afterLast_append (c : Nat) (p sig : Bytes) (h : c ∉ p ++ sig) :
    ∀ pre : Bytes, afterLast (c :: p) (pre ++ ((c :: p) ++ sig)) = some sig
  | [] => by
    have hn := afterLast_none_of_not_mem c p (p ++ sig) h
    have hp := isPrefixOf_append_self p sig
    simp [afterLast, hn, List.isPrefixOf, hp]
  | x :: pre => by
    have ih := afterLast_append c p sig h pre
    simp only [List.cons_append] at ih ⊢
    simp [afterLast, ih]

theorem str_amp_signature :
    str "&signature=" = 38 :: [115, 105, 103, 110, 97, 116, 117, 114, 101, 61] := by
  decide

theorem afterLast_signature (pre b : Bytes) :
    afterLast (str "&signature=") (pre ++ str "&signature=" ++ EncodeToString b) =
      some (EncodeToString b) := by
  rw [List.append_assoc, str_amp_signature]
  apply afterLast_append
  intro h
  rw [List.mem_append] at h
  rcases h with h | h
  · revert h
    decide
  · exact amp_not_mem_EncodeToString b h

/-- C2: whenever `SignURL U K` succeeds with `S`, the key decodes to some `k`,
the URL parses to some `u`, and the text of `S` after the last `&signature=`
is the base64url text of HMAC-SHA1 of `path(U) ? rawQuery(U)` under `k`. -/
theorem SignURL_roundtrip (U K S : Bytes) (h : SignURL U K = (S, none)) :
    ∃ k u, DecodeString K = (k, none) ∧ Parse U = .ok u ∧
      afterLast (str "&signature=") S =
        some (EncodeToString (hmacSHA1 k (u.Path ++ str "?" ++ u.RawQuery))) := by
  rcases SignURL_cases U K with ⟨e, _, he⟩ | ⟨k, e, _, _, he⟩ | ⟨k, u, hk, hu, hs⟩
  · rw [he] at h
    simp at h
  · rw [he] at h
    simp at h
  · refine ⟨k, u, hk, hu, ?_⟩
    rw [hs] at h
    have hS : S = reassembled u ++ str "&signature=" ++ signature k u :=
      (congrArg Prod.fst h).symm
    rw [hS]
    exact afterLast_signature _ _

set_option maxRecDepth 100000 in
/-- C2 at the concrete scenario: the text after the last `&signature=` of the
signed URL is the recomputed signature. -/
theorem SignURL_roundtrip_witness :
    ∃ k u, DecodeString (str "AAAAAAAAAAAAAAAAAAAAAA==") = (k, none) ∧
      Parse (str "https://maps.example.com/maps/api/geocode/json?address=test") = .ok u ∧
      afterLast (str "&signature=")
          (str "https://maps.example.com/maps/api/geocode/json?address=test&signature=XWUDmt0t3wAtw-HlbbdMi94xIXc=") =
        some (EncodeToString (hmacSHA1 k (u.Path ++ str "?" ++ u.RawQuery))) :=
  SignURL_roundtrip
    (str "https://maps.example.com/maps/api/geocode/json?address=test")
    (str "AAAAAAAAAAAAAAAAAAAAAA==")
    (str "https://maps.example.com/maps/api/geocode/json?address=test&signature=XWUDmt0t3wAtw-HlbbdMi94xIXc=")
    (by decide)

/-! ## C3: a malformed key -/

/-- C3: when the key does not decode, with decoder error `e`, `SignURL` returns
the empty string and the error that wraps `e` with the message
`failed parsing key`, whatever the URL is. -/
theorem SignURL_malformed_key (rawURL key : Bytes) (e : CorruptInputError)
    (hk : (DecodeString key).2 = some e) :
    SignURL rawURL key = ([], some ⟨.base64 e, str "failed parsing key"⟩) :=
  SignURL_of_key_error rawURL hk

/-- C3 at the key `not-valid-base64!!!`: the decoder stops at input byte 16. -/
theorem SignURL_malformed_key_witness :
    SignURL (str "https://maps.example.com/maps/api/geocode/json?address=test")
        (str "not-valid-base64!!!") =
      ([], some ⟨.base64 ⟨16⟩, str "failed parsing key"⟩) :=
  SignURL_malformed_key
    (str "https://maps.example.com/maps/api/geocode/json?address=test")
    (str "not-valid-base64!!!") ⟨16⟩ (by decide)

/-! ## C5: which keys are rejected -/

theorem decodeMap_ne_ff {c : Nat} (h : decodeMap c ≠ 0xff) : c ∈ encodeURL := by
  unfold decodeMap at h
  by_contra hc
  simp [hc] at h

theorem alphabet_not_newline {c : Nat} (h : c ∈ encodeURL) : ¬(c = 10 ∨ c = 13) := by
  rintro (rfl | rfl) <;> revert h <;> decide

theorem stripNewlines_cons_of_newline {c : Nat} (s : Bytes) (h : c = 10 ∨ c = 13) :
    stripNewlines (c :: s) = stripNewlines s := by
  unfold stripNewlines
  rw [List.filter_cons_of_neg]
  simp only [Bool.not_eq_true', decide_eq_false_iff_not, not_not, Bool.not_eq_true]
  exact h

theorem stripNewlines_cons_of_not {c : Nat} (s : Bytes) (h : ¬(c = 10 ∨ c = 13)) :
    stripNewlines (c :: s) = c :: stripNewlines s := by
  unfold stripNewlines
  rw [List.filter_cons_of_pos]
  simpa using h

theorem skipNewlines_spec : ∀ (s : Bytes) (si : Nat),
    stripNewlines (skipNewlines si s).2 = stripNewlines s ∧
      (skipNewlines si s).2.length ≤ s.length
  | [], si => by simp [skipNewlines]
  | c :: s, si => by
    unfold skipNewlines
    split
    · rename_i h
      have ih := skipNewlines_spec s (si + 1)
      rw [stripNewlines_cons_of_newline s h]
      exact ⟨ih.1, by simp only [List.length_cons]; omega⟩
    · exact ⟨rfl, le_refl _⟩

theorem quantumLoop_four (d : List Nat) (si : Nat) (s : Bytes) :
    quantumLoop 4 d si s = .done si s d 4 none := by
  cases s <;> simp [quantumLoop]

theorem quantumLoop_ok : ∀ (src : Bytes) (j : Nat) (dbuf : List Nat) (si : Nat), j < 4 →
    QuantumOk j src (quantumLoop j dbuf si src)
  | [], j, dbuf, si, hj => by
    unfold quantumLoop
    have h4 : ¬ 4 ≤ j := by omega
    simp only [h4, if_false]
    split
    · simp [QuantumOk, *, stripNewlines]
    · simp [QuantumOk]
  | c :: rest, j, dbuf, si, hj => by
    unfold quantumLoop
    have h4 : ¬ 4 ≤ j := by omega
    simp only [h4, if_false]
    split
    · rename_i hc
      have hmem := decodeMap_ne_ff hc
      have hnl := alphabet_not_newline hmem
      by_cases hj3 : j = 3
      · subst hj3
        rw [quantumLoop_four]
        refine ⟨[c], ?_, rfl, ?_, by omega, le_refl _, by omega, by simp⟩
        · intro x hx
          simp only [List.mem_singleton] at hx
          exact hx ▸ hmem
        · rw [stripNewlines_cons_of_not rest hnl]
          simp
      · have ih := quantumLoop_ok rest (j + 1) (dbuf.set j (decodeMap c)) (si + 1) (by omega)
        revert ih
        cases quantumLoop (j + 1) (dbuf.set j (decodeMap c)) (si + 1) rest with
        | ret s r e =>
          cases e with
          | none => intro ih; simp [QuantumOk] at ih
          | some e => intro _; simp [QuantumOk]
        | done s r d dlen e =>
          cases e with
          | some e => intro _; simp [QuantumOk]
          | none =>
            rintro ⟨g, hg, hlen, hs, h2, h4, hr, hl⟩
            refine ⟨c :: g, ?_, by simp only [List.length_cons]; omega, ?_, h2, h4, hr,
              by simp only [List.length_cons]; omega⟩
            · intro x hx
              rcases List.mem_cons.1 hx with hx | hx
              · exact hx ▸ hmem
              · exact hg x hx
            · rw [stripNewlines_cons_of_not rest hnl, hs]
              simp
    · split
      · rename_i hnl
        have ih := quantumLoop_ok rest j dbuf (si + 1) hj
        revert ih
        cases quantumLoop j dbuf (si + 1) rest with
        | ret s r e =>
          cases e with
          | none =>
            rintro ⟨h0, hs, hr⟩
            exact ⟨h0, by rw [stripNewlines_cons_of_newline rest hnl]; exact hs, hr⟩
          | some e => intro _; simp [QuantumOk]
        | done s r d dlen e =>
          cases e with
          | some e => intro _; simp [QuantumOk]
          | none =>
            rintro ⟨g, hg, hlen, hs, h2, h4, hr, hl⟩
            refine ⟨g, hg, hlen, ?_, h2, h4, hr, by simp only [List.length_cons]; omega⟩
            rw [stripNewlines_cons_of_newline rest hnl]
            exact hs
      · rename_i hnl
        split
        · simp [QuantumOk]
        · rename_i hpad
          have hc : c = 61 := by
            simpa [padChar] using hpad
          subst hc
          split
          · simp [QuantumOk]
          · rename_i hj01
            split
            · rename_i hj2
              subst hj2
              have hk1 := skipNewlines_spec rest (si + 1)
              split
              · simp [QuantumOk]
              · rename_i si2 d rest2 hsk
                rw [hsk] at hk1
                split
                · simp [QuantumOk]
                · rename_i hd
                  have hd2 : d = 61 := by simpa [padChar] using hd
                  subst hd2
                  have hk2 := skipNewlines_spec rest2 (si2 + 1)
                  split
                  · rename_i si3 hsk2
                    rw [hsk2] at hk2
                    refine ⟨[], by simp, rfl, ?_, le_refl _, by omega, fun _ => rfl, by simp⟩
                    rw [stripNewlines_cons_of_not rest (by decide), ← hk1.1,
                      stripNewlines_cons_of_not rest2 (by decide), ← hk2.1]
                    simp [stripNewlines]
                  · simp [QuantumOk]
            · rename_i hj2
              have hj3 : j = 3 := by omega
              subst hj3
              have hk1 := skipNewlines_spec rest (si + 1)
              split
              · rename_i si3 hsk
                rw [hsk] at hk1
                refine ⟨[], by simp, rfl, ?_, by omega, by omega, fun _ => rfl, by simp⟩
                rw [stripNewlines_cons_of_not rest (by decide), ← hk1.1]
                simp [stripNewlines]
              · simp [QuantumOk]

theorem wellPadded_group (a b c d : Nat) (t : Bytes) (ha : a ∈ encodeURL) (hb : b ∈ encodeURL)
    (hc : c ∈ encodeURL) (hd : d ∈ encodeURL) :
    wellPadded (a :: b :: c :: d :: t) = wellPadded t := by
  cases t with
  | nil => simp [wellPadded, inAlphabet, ha, hb, hc, hd]
  | cons x t => simp [wellPadded, inAlphabet, ha, hb, hc, hd]

theorem decodeLoop_ok : ∀ (fuel si : Nat) (src dst : Bytes), src.length ≤ fuel →
    (decodeLoop fuel si src dst).2 = none → wellPadded (stripNewlines src) = true
  | 0, si, src, dst, hf, _ => by
    have : src = [] := List.length_eq_zero.1 (by omega)
    subst this
    rfl
  | fuel + 1, si, [], dst, _, _ => rfl
  | fuel + 1, si, c :: rest, dst, hf, h => by
    unfold decodeLoop at h
    simp only at h
    have hq := quantumLoop_ok (c :: rest) 0 [0, 0, 0, 0] si (by omega)
    unfold decodeQuantum at h
    revert h hq
    cases quantumLoop 0 [0, 0, 0, 0] si (c :: rest) with
    | ret s r e =>
      cases e with
      | some e => intro h _; simp at h
      | none =>
        rintro _ ⟨_, hs, _⟩
        rw [hs]
        rfl
    | done s r d dlen e =>
      cases e with
      | some e => intro h _; simp at h
      | none =>
        rintro h ⟨g, hg, hlen, hs, h2, h4, hr, hl⟩
        simp only at h
        rw [hs]
        by_cases hd : dlen = 4
        · subst hd
          have ih := decodeLoop_ok fuel s r _ (by simp only [List.length_cons] at hf hl; omega) h
          match g, hg, hlen with
          | [a, b, c, d], hg, _ =>
            simp only [Nat.sub_self, List.replicate_zero, List.append_nil, List.cons_append,
              List.nil_append]
            rw [wellPadded_group a b c d _ (hg a (by simp)) (hg b (by simp)) (hg c (by simp))
              (hg d (by simp))]
            exact ih
        · have hr2 := hr (by omega)
          subst hr2
          have h23 : dlen = 2 ∨ dlen = 3 := by omega
          rcases h23 with rfl | rfl
          · match g, hg, hlen with
            | [a, b], hg, _ =>
              simp [wellPadded, inAlphabet, stripNewlines, hg a (by simp), hg b (by simp)]
          · match g, hg, hlen with
            | [a, b, c], hg, _ =>
              simp [wellPadded, inAlphabet, stripNewlines, hg a (by simp), hg b (by simp),
                hg c (by simp)]

theorem decodeQuantum_rest_lt (si c : Nat) (rest : Bytes)
    (h : (decodeQuantum si (c :: rest)).err = none) :
    (decodeQuantum si (c :: rest)).rest.length < (c :: rest).length := by
  have hq := quantumLoop_ok (c :: rest) 0 [0, 0, 0, 0] si (by omega)
  unfold decodeQuantum at h ⊢
  revert h hq
  cases quantumLoop 0 [0, 0, 0, 0] si (c :: rest) with
  | ret s r e =>
    cases e with
    | some e => intro h _; simp at h
    | none =>
      rintro _ ⟨_, _, hr⟩
      subst hr
      simp
  | done s r d dlen e =>
    cases e with
    | some e => intro h _; simp at h
    | none =>
      rintro _ ⟨g, _, hlen, _, h2, _, _, hl⟩
      simp only
      omega

/-- The fuel of `DecodeString` never runs out: the loop gives the same result
with any fuel that is at least the length of the input. -/
theorem decodeLoop_fuel : ∀ (f1 f2 si : Nat) (src dst : Bytes), src.length ≤ f1 →
    src.length ≤ f2 → decodeLoop f1 si src dst = decodeLoop f2 si src dst
  | 0, f2, si, src, dst, h1, _ => by
    have : src = [] := List.length_eq_zero.1 (by omega)
    subst this
    cases f2 <;> rfl
  | f1 + 1, f2, si, [], dst, _, _ => by
    cases f2 <;> rfl
  | f1 + 1, 0, si, c :: rest, dst, _, h2 => by
    simp at h2
  | f1 + 1, f2 + 1, si, c :: rest, dst, h1, h2 => by
    unfold decodeLoop
    simp only
    cases he : (decodeQuantum si (c :: rest)).err with
    | some e => rfl
    | none =>
      have hlt := decodeQuantum_rest_lt si c rest he
      simp only
      exact decodeLoop_fuel f1 f2 _ _ _ (by omega) (by omega)

/-- A key text that is not padded base64url, CR and LF disregarded, makes the
decoder fail. -/
theorem DecodeString_error_of_invalid (key : Bytes) (h : validKey key = false) :
    ∃ e, (DecodeString key).2 = some e := by
  cases hd : (DecodeString key).2 with
  | some e => exact ⟨e, rfl⟩
  | none =>
    have := decodeLoop_ok key.length 0 key [] (le_refl _) hd
    unfold validKey at h
    rw [this] at h
    cases h

theorem wellPadded_mem : ∀ (t : Bytes), wellPadded t = true →
    ∀ x ∈ t, x ∈ encodeURL ∨ x = 61
  | [], _, x, hx => by simp at hx
  | [_], h, _, _ => by simp [wellPadded] at h
  | [_, _], h, _, _ => by simp [wellPadded] at h
  | [_, _, _], h, _, _ => by simp [wellPadded] at h
  | [a, b, c, d], h, x, hx => by
    simp only [wellPadded, inAlphabet, Bool.and_eq_true, Bool.or_eq_true, decide_eq_true_eq,
      beq_iff_eq] at h
    simp only [List.mem_cons, List.mem_singleton, List.not_mem_nil, or_false] at hx
    rcases hx with rfl | rfl | rfl | rfl
    · exact Or.inl h.1.1
    · exact Or.inl h.1.2
    · rcases h.2 with (h2 | h2) | h2
      · exact Or.inl h2.1
      · exact Or.inl h2.1
      · exact Or.inr h2.1
    · rcases h.2 with (h2 | h2) | h2
      · exact Or.inl h2.2
      · exact Or.inr h2.2
      · exact Or.inr h2.2
  | a :: b :: c :: d :: e :: t, h, x, hx => by
    simp only [wellPadded, inAlphabet, Bool.and_eq_true, decide_eq_true_eq] at h
    have ih := wellPadded_mem (e :: t) h.2
    simp only [List.mem_cons] at hx
    rcases hx with rfl | rfl | rfl | rfl | hx
    · exact Or.inl h.1.1.1.1
    · exact Or.inl h.1.1.1.2
    · exact Or.inl h.1.1.2
    · exact Or.inl h.1.2
    · exact ih x (List.mem_cons.2 hx)

/-- A key text with a character that is neither in the alphabet nor `=`, CR or
LF is not valid. -/
theorem validKey_false_of_bad_byte (key : Bytes) (c : Nat) (hc : c ∈ key)
    (h1 : c ∉ encodeURL) (h2 : c ≠ padChar) (h3 : c ≠ 10) (h4 : c ≠ 13) :
    validKey key = false := by
  cases hv : validKey key with
  | false => rfl
  | true =>
    have hm : c ∈ stripNewlines key := by
      unfold stripNewlines
      rw [List.mem_filter]
      exact ⟨hc, by simp [h3, h4]⟩
    rcases wellPadded_mem _ hv c hm with h | h
    · exact absurd h h1
    · exact absurd h h2

set_option maxRecDepth 100000 in
/-- C5, as stated, fails: the key `AAAA` followed by a line feed contains a
character outside the alphabet, and `SignURL` accepts it, since the decoder
skips CR and LF. -/
theorem SignURL_accepts_line_feed_in_key :
    (10 ∈ str "AAAA" ++ [10] ∧ 10 ∉ encodeURL ∧ 10 ≠ padChar) ∧
    DecodeString (str "AAAA" ++ [10]) = ([0, 0, 0], none) ∧
    SignURL (str "https://example.com/path") (str "AAAA" ++ [10]) =
      (str "https://example.com/path?&signature=24Mqm42sx35SSYaEQw3IPlySYWg=", none) := by
  decide

/-- C5, amended: a key with a character that is neither in the URL-safe
alphabet nor `=`, CR or LF, or a key that is not padded base64url once CR and
LF are disregarded (missing or misplaced padding included), makes `SignURL`
fail with the key-decoding error, whatever the URL is. -/
theorem SignURL_rejects_invalid_key (rawURL key : Bytes)
    (h : (∃ c ∈ key, c ∉ encodeURL ∧ c ≠ padChar ∧ c ≠ 10 ∧ c ≠ 13) ∨ validKey key = false) :
    ∃ e, SignURL rawURL key = ([], some ⟨.base64 e, str "failed parsing key"⟩) := by
  have hv : validKey key = false := by
    rcases h with ⟨c, hc, h1, h2, h3, h4⟩ | h
    · exact validKey_false_of_bad_byte key c hc h1 h2 h3 h4
    · exact h
  obtain ⟨e, he⟩ := DecodeString_error_of_invalid key hv
  exact ⟨e, SignURL_of_key_error rawURL he⟩

/-- C5, amended, at a key in the standard alphabet (`ab+/`) and at a key
without padding (`AAA`). -/
theorem SignURL_rejects_invalid_key_witness :
    (∃ e, SignURL (str "https://example.com/path") (str "ab+/") =
      ([], some ⟨.base64 e, str "failed parsing key"⟩)) ∧
    (∃ e, SignURL (str "https://example.com/path") (str "AAA") =
      ([], some ⟨.base64 e, str "failed parsing key"⟩)) :=
  ⟨SignURL_rejects_invalid_key (str "https://example.com/path") (str "ab+/")
      (Or.inl ⟨43, by decide, by decide, by decide, by decide, by decide⟩),
    SignURL_rejects_invalid_key (str "https://example.com/path") (str "AAA")
      (Or.inr (by decide))⟩

/-! ## C6: the failure modes -/

/-- C6: `SignURL` returns an error exactly when the key does not decode or the
URL does not parse; when both succeed it returns a non-empty string and no
error; and every error it returns wraps the decoder's error with
`failed parsing key` or the parser's error with `failed parsing url`. -/
theorem SignURL_failure_modes (rawURL key : Bytes) :
    ((SignURL rawURL key).2 ≠ none ↔
      ((DecodeString key).2 ≠ none ∨ ∃ e, Parse rawURL = .error e)) ∧
    ((DecodeString key).2 = none → (∃ u, Parse rawURL = .ok u) →
      (SignURL rawURL key).1 ≠ [] ∧ (SignURL rawURL key).2 = none) ∧
    (∀ w, (SignURL rawURL key).2 = some w →
      (∃ e, (DecodeString key).2 = some e ∧ w = ⟨.base64 e, str "failed parsing key"⟩) ∨
      (∃ e, Parse rawURL = .error e ∧ w = ⟨.url e, str "failed parsing url"⟩)) := by
  rcases SignURL_cases rawURL key with ⟨e, hk, hs⟩ | ⟨k, e, hk, hu, hs⟩ | ⟨k, u, hk, hu, hs⟩
  · refine ⟨?_, ?_, ?_⟩
    · simp [hs, hk]
    · intro h
      rw [hk] at h
      simp at h
    · intro w hw
      rw [hs] at hw
      simp only [Option.some.injEq] at hw
      exact Or.inl ⟨e, hk, hw.symm⟩
  · refine ⟨?_, ?_, ?_⟩
    · simp [hs, hk, hu]
    · rintro _ ⟨u, hu2⟩
      rw [hu] at hu2
      simp at hu2
    · intro w hw
      rw [hs] at hw
      simp only [Option.some.injEq] at hw
      exact Or.inr ⟨e, hu, hw.symm⟩
  · refine ⟨?_, ?_, ?_⟩
    · simp [hs, hk, hu]
    · intro _ _
      rw [hs]
      refine ⟨?_, rfl⟩
      intro h
      have h2 : reassembled u = [] := by
        simp only [List.append_eq_nil] at h
        exact h.1.1
      exact reassembled_ne_nil u h2
    · intro w hw
      rw [hs] at hw
      simp at hw

/-! ## C7: the empty query -/

theorem str_question : str "?" = [63] := by decide

theorem Index_none_of_not_mem (c : Nat) : ∀ s : Bytes, c ∉ s → Index s [c] = none
  | [], _ => by simp [Index]
  | x :: s, h => by
    have hx : c ≠ x := fun e => h (e ▸ List.mem_cons_self _ _)
    have hs : c ∉ s := fun e => h (List.mem_cons_of_mem _ e)
    simp [Index, List.isPrefixOf, hx, Index_none_of_not_mem c s hs]

theorem Cut_of_not_mem (c : Nat) (s : Bytes) (h : c ∉ s) : Cut s [c] = (s, [], false) := by
  simp [Cut, Index_none_of_not_mem c s h]

theorem Cut_fst_subset (s sep : Bytes) : ∀ x ∈ (Cut s sep).1, x ∈ s := by
  intro x hx
  unfold Cut at hx
  split at hx
  · exact List.mem_of_mem_take hx
  · exact hx

theorem getSchemeLoop_rest_subset (rawURL : Bytes) :
    ∀ (s : Bytes) (i : Nat) (r : Bytes × Bytes), (∀ x ∈ s, x ∈ rawURL) →
      getSchemeLoop rawURL i s = .ok r → ∀ x ∈ r.2, x ∈ rawURL
  | [], i, r, _, h => by
    simp only [getSchemeLoop, Except.ok.injEq] at h
    subst h
    exact fun x hx => hx
  | c :: s, i, r, hs, h => by
    have hs2 : ∀ x ∈ s, x ∈ rawURL := fun x hx => hs x (List.mem_cons_of_mem _ hx)
    unfold getSchemeLoop at h
    split at h
    · exact getSchemeLoop_rest_subset rawURL s (i + 1) r hs2 h
    · split at h
      · split at h
        · simp only [Except.ok.injEq] at h
          subst h
          exact fun x hx => hx
        · exact getSchemeLoop_rest_subset rawURL s (i + 1) r hs2 h
      · split at h
        · split at h
          · simp at h
          · simp only [Except.ok.injEq] at h
            subst h
            exact hs2
        · simp only [Except.ok.injEq] at h
          subst h
          exact fun x hx => hx

/-- A text without `?` parses to a URL with an empty raw query. -/
theorem parse_RawQuery_of_no_question (s : Bytes) (u : URL) (h : 63 ∉ s)
    (hu : parse s = .ok u) : u.RawQuery = [] := by
  unfold parse at hu
  split at hu
  · simp at hu
  · split at hu
    · simp only [Except.ok.injEq] at hu
      subst hu
      rfl
    · split at hu
      · simp at hu
      · rename_i scheme0 rest0 hg
        have hr : 63 ∉ rest0 := fun hm =>
          h (getSchemeLoop_rest_subset s s 0 (scheme0, rest0) (fun x hx => hx) hg 63 hm)
        have hc : Cut rest0 (str "?") = (rest0, [], false) := by
          rw [str_question]
          exact Cut_of_not_mem 63 rest0 hr
        simp only [hc, ite_self] at hu
        repeat' split at hu
        all_goals first | (cases hu; done) | (cases hu; rfl)

/-- A URL text without `?` has no query string: `Parse` leaves `RawQuery` empty. -/
theorem Parse_RawQuery_of_no_question (rawURL : Bytes) (u : URL) (h : 63 ∉ rawURL)
    (hu : Parse rawURL = .ok u) : u.RawQuery = [] := by
  have h1 : 63 ∉ (Cut rawURL (str "#")).1 := fun hm => h (Cut_fst_subset _ _ 63 hm)
  unfold Parse at hu
  simp only at hu
  split at hu
  · simp at hu
  · rename_i url hp
    have hq := parse_RawQuery_of_no_question _ url h1 hp
    split at hu
    · simp only [Except.ok.injEq] at hu
      subst hu
      exact hq
    · split at hu
      · simp at hu
      · simp only [Except.ok.injEq] at hu
        subst hu
        exact hq

/-- C7: when the key decodes to `k` and the URL parses to `u` with an empty raw
query, the payload is `path ++ "?"` and the output is
`scheme://host path ?&signature=` followed by the base64url text of HMAC-SHA1
of `path ++ "?"` under `k`. -/
theorem SignURL_empty_query (rawURL key k : Bytes) (u : URL)
    (hk : DecodeString key = (k, none)) (hu : Parse rawURL = .ok u)
    (hq : u.RawQuery = []) :
    payload u = u.Path ++ str "?" ∧
    SignURL rawURL key =
      (u.Scheme ++ str "://" ++ u.Host ++ u.Path ++ str "?&signature=" ++
        EncodeToString (hmacSHA1 k (u.Path ++ str "?")), none) := by
  have hp : payload u = u.Path ++ str "?" := by
    simp [payload, hq]
  refine ⟨hp, ?_⟩
  rw [SignURL_of_ok hk hu, signature, hp]
  have hs : str "?&signature=" = str "?" ++ str "&signature=" := by decide
  simp only [reassembled, hq, hs, List.append_nil, List.append_assoc]

set_option maxRecDepth 100000 in
/-- C7 at the URL `https://example.com/path`. -/
theorem SignURL_empty_query_witness :
    payload { Scheme := str "https", Host := str "example.com", Path := str "/path" } =
      str "/path?" ∧
    SignURL (str "https://example.com/path") (str "AAAAAAAAAAAAAAAAAAAAAA==") =
      (str "https://example.com/path?&signature=24Mqm42sx35SSYaEQw3IPlySYWg=", none) :=
  have h := SignURL_empty_query (str "https://example.com/path")
    (str "AAAAAAAAAAAAAAAAAAAAAA==") (List.replicate 16 0)
    { Scheme := str "https", Host := str "example.com", Path := str "/path" }
    (by decide) (by decide) (by decide)
  ⟨h.1.trans (by decide), h.2.trans (by decide)⟩

/-! ## C8: the input as a prefix of the output -/

theorem str_hash : str "#" = [35] := by decide
theorem str_slash : str "/" = [47] := by decide
theorem str_colon : str ":" = [58] := by decide
theorem str_at : str "@" = [64] := by decide
theorem str_bracket : str "[" = [91] := by decide
theorem str_star : str "*" = [42] := by decide
theorem str_slashes : str "//" = [47, 47] := by decide
theorem str_scheme_sep : str "://" = [58, 47, 47] := by decide

theorem Index_append_of_not_mem (c : Nat) (b : Bytes) :
    ∀ a : Bytes, c ∉ a → Index (a ++ c :: b) [c] = some a.length
  | [], _ => by simp [Index, List.isPrefixOf]
  | x :: a, h => by
    have hx : c ≠ x := fun e => h (e ▸ List.mem_cons_self _ _)
    have ha : c ∉ a := fun e => h (List.mem_cons_of_mem _ e)
    simp [Index, List.isPrefixOf, hx, Index_append_of_not_mem c b a ha]

theorem LastIndex_none_of_not_mem (c : Nat) : ∀ s : Bytes, c ∉ s → LastIndex s [c] = none
  | [], _ => by simp [LastIndex]
  | x :: s, h => by
    have hx : c ≠ x := fun e => h (e ▸ List.mem_cons_self _ _)
    have hs : c ∉ s := fun e => h (List.mem_cons_of_mem _ e)
    simp [LastIndex, List.isPrefixOf, hx, LastIndex_none_of_not_mem c s hs]

theorem LastIndex_append_of_not_mem (c : Nat) (b : Bytes) (hb : c ∉ b) :
    ∀ a : Bytes, LastIndex (a ++ c :: b) [c] = some a.length
  | [] => by
    simp [LastIndex, List.isPrefixOf, LastIndex_none_of_not_mem c b hb]
  | x :: a => by
    simp [LastIndex, LastIndex_append_of_not_mem c b hb a]

theorem Cut_append_of_not_mem (c : Nat) (a b : Bytes) (h : c ∉ a) :
    Cut (a ++ c :: b) [c] = (a, b, true) := by
  simp [Cut, Index_append_of_not_mem c b a h]

/-- The check of `unescape` passes a text without `%` whose bytes need no
escaping in the mode. -/
theorem unescapeCheck_plain (mode : Encoding) : ∀ s : Bytes,
    (∀ b ∈ s, b ≠ 37 ∧ ((mode = .encodeHost ∨ mode = .encodeZone) →
      (0x80 ≤ b ∨ shouldEscapeHost b = false))) →
    unescapeCheck mode s = none
  | [], _ => by simp [unescapeCheck]
  | c :: s, h => by
    have hc := h c (List.mem_cons_self _ _)
    have ih := unescapeCheck_plain mode s fun b hb => h b (List.mem_cons_of_mem _ hb)
    unfold unescapeCheck
    rw [if_neg hc.1, if_neg, ih]
    rintro ⟨hm, hlt, hse⟩
    rcases hc.2 hm with h1 | h1
    · omega
    · rw [h1] at hse
      cases hse

theorem unescapeBuild_plain : ∀ s : Bytes, 37 ∉ s → unescapeBuild s = s
  | [], _ => by simp [unescapeBuild]
  | c :: s, h => by
    have hc : c ≠ 37 := fun e => h (e ▸ List.mem_cons_self _ _)
    have hs : 37 ∉ s := fun e => h (List.mem_cons_of_mem _ e)
    unfold unescapeBuild
    rw [if_neg hc, unescapeBuild_plain s hs]

theorem unescape_plain (mode : Encoding) (s : Bytes)
    (h : ∀ b ∈ s, b ≠ 37 ∧ ((mode = .encodeHost ∨ mode = .encodeZone) →
      (0x80 ≤ b ∨ shouldEscapeHost b = false))) :
    unescape s mode = .ok s := by
  have h37 : 37 ∉ s := fun hm => (h 37 hm).1 rfl
  simp [unescape, unescapeCheck_plain mode s h, unescapeBuild_plain s h37]

theorem getSchemeLoop_scheme (rawURL r : Bytes) : ∀ (s1 : Bytes) (i : Nat), 0 < i →
    (∀ b ∈ s1, (97 ≤ b ∧ b ≤ 122) ∨ (48 ≤ b ∧ b ≤ 57) ∨ b = 43 ∨ b = 45 ∨ b = 46) →
    getSchemeLoop rawURL i (s1 ++ 58 :: r) = .ok (rawURL.take (i + s1.length), r)
  | [], i, hi, _ => by
    have h0 : i ≠ 0 := by omega
    simp [getSchemeLoop, h0]
  | b :: s1, i, hi, h => by
    have hb := h b (List.mem_cons_self _ _)
    have ih := getSchemeLoop_scheme rawURL r s1 (i + 1) (by omega)
      fun x hx => h x (List.mem_cons_of_mem _ hx)
    have h0 : i ≠ 0 := by omega
    have hlen : i + (b :: s1).length = i + 1 + s1.length := by
      simp only [List.length_cons]; omega
    rw [hlen, ← ih]
    simp only [List.cons_append]
    rw [getSchemeLoop]
    by_cases hl : (97 ≤ b ∧ b ≤ 122) ∨ (65 ≤ b ∧ b ≤ 90)
    · rw [if_pos hl]
    · rw [if_neg hl, if_pos (by omega), if_neg h0]

theorem getScheme_plain (scheme r : Bytes) (hs : plainScheme scheme = true) :
    getScheme (scheme ++ 58 :: r) = .ok (scheme, r) := by
  cases scheme with
  | nil => simp [plainScheme] at hs
  | cons c s1 =>
    simp only [plainScheme, Bool.and_eq_true, decide_eq_true_eq, List.all_eq_true] at hs
    have h1 := getSchemeLoop_scheme (c :: s1 ++ 58 :: r) r s1 1 (by omega) (by
      intro b hb
      have := hs.2 b hb
      simpa using this)
    unfold getScheme
    simp only [List.cons_append]
    rw [getSchemeLoop, if_pos (Or.inl hs.1)]
    simp only [List.cons_append] at h1
    rw [h1]
    have : (c :: (s1 ++ 58 :: r)).take (1 + s1.length) = c :: s1 := by
      rw [Nat.add_comm, List.take_succ_cons, List.take_left']
      rfl
    rw [this]

theorem ToLower_plain (scheme : Bytes) (hs : plainScheme scheme = true) :
    ToLower scheme = scheme := by
  cases scheme with
  | nil => rfl
  | cons c s1 =>
    simp only [plainScheme, Bool.and_eq_true, decide_eq_true_eq, List.all_eq_true] at hs
    unfold ToLower
    have hm : ∀ b ∈ c :: s1, (if 65 ≤ b ∧ b ≤ 90 then b + 32 else b) = id b := by
      intro b hb
      have hb2 : ¬(65 ≤ b ∧ b ≤ 90) := by
        rcases List.mem_cons.1 hb with rfl | hb
        · omega
        · have := hs.2 b hb
          omega
      rw [if_neg hb2]
      rfl
    rw [List.map_congr_left hm, List.map_id]

theorem shouldEscapeHost_ascii : ∀ b, b < 128 → shouldEscapeHost b = false →
    32 ≤ b ∧ b ≠ 0x7f ∧ b ≠ 35 ∧ b ≠ 37 ∧ b ≠ 47 ∧ b ≠ 63 ∧ b ≠ 64 := by
  decide

theorem plainHost_byte (h : Bytes) (hh : plainHost h = true) : ∀ b ∈ h,
    b ≠ 58 ∧ b ≠ 91 ∧ 32 ≤ b ∧ b ≠ 0x7f ∧ b ≠ 35 ∧ b ≠ 37 ∧ b ≠ 47 ∧ b ≠ 63 ∧ b ≠ 64 ∧
      (0x80 ≤ b ∨ shouldEscapeHost b = false) := by
  intro b hb
  simp only [plainHost, List.all_eq_true] at hh
  have := hh b hb
  simp only [Bool.and_eq_true, decide_eq_true_eq, Bool.or_eq_true, Bool.not_eq_true',
    Bool.decide_and] at this
  obtain ⟨h1, h2, h3⟩ := this
  refine ⟨h1, h2, ?_⟩
  by_cases hlt : b < 128
  · have h4 : shouldEscapeHost b = false := by
      rcases h3 with h3 | h3
      · omega
      · exact h3
    have h5 := shouldEscapeHost_ascii b hlt h4
    exact ⟨h5.1, h5.2.1, h5.2.2.1, h5.2.2.2.1, h5.2.2.2.2.1, h5.2.2.2.2.2.1, h5.2.2.2.2.2.2,
      Or.inr h4⟩
  · refine ⟨?_, ?_, ?_, ?_, ?_, ?_, ?_, Or.inl ?_⟩ <;> omega

theorem shouldEscapeHost_port : ∀ b, b = 58 ∨ (48 ≤ b ∧ b ≤ 57) → shouldEscapeHost b = false := by
  intro b hb
  have : b < 128 := by omega
  revert hb
  revert b
  decide

theorem plainPort_byte (p : Bytes) (hp : plainPort p = true) :
    ∀ b ∈ p, b = 58 ∨ (48 ≤ b ∧ b ≤ 57) := by
  cases p with
  | nil => intro b hb; simp at hb
  | cons c ds =>
    simp only [plainPort, Bool.and_eq_true, decide_eq_true_eq, List.all_eq_true] at hp
    intro b hb
    rcases List.mem_cons.1 hb with rfl | hb
    · exact Or.inl hp.1
    · have := hp.2 b hb
      simp only [Bool.decide_and, Bool.and_eq_true, decide_eq_true_eq] at this
      exact Or.inr this

theorem parseHost_plain (hostname port : Bytes) (hh : plainHost hostname = true)
    (hp : plainPort port = true) :
    parseHost (hostname ++ port) = .ok (hostname ++ port) := by
  have hhb := plainHost_byte hostname hh
  have hpb := plainPort_byte port hp
  have hun : unescape (hostname ++ port) .encodeHost = .ok (hostname ++ port) := by
    apply unescape_plain
    intro b hb
    rcases List.mem_append.1 hb with hb | hb
    · have := hhb b hb
      exact ⟨this.2.2.2.2.2.1, fun _ => this.2.2.2.2.2.2.2.2.2⟩
    · have := hpb b hb
      exact ⟨by omega, fun _ => Or.inr (shouldEscapeHost_port b this)⟩
  have hpre : HasPrefix (hostname ++ port) (str "[") = false := by
    rw [str_bracket]
    cases hostname with
    | nil =>
      cases port with
      | nil => rfl
      | cons c ds =>
        have := hpb c (List.mem_cons_self _ _)
        have hc : (91 == c) = false := by
          rw [beq_eq_false_iff_ne]; omega
        simp [HasPrefix, List.isPrefixOf, hc]
    | cons b t =>
      have := hhb b (List.mem_cons_self _ _)
      have hc : (91 == b) = false := by
        rw [beq_eq_false_iff_ne]; omega
      simp [HasPrefix, List.isPrefixOf, hc]
  unfold parseHost
  rw [hpre]
  simp only [Bool.false_eq_true, if_false]
  rw [str_colon]
  cases port with
  | nil =>
    have : LastIndex (hostname ++ []) [58] = none := by
      apply LastIndex_none_of_not_mem
      rw [List.append_nil]
      exact fun hm => (hhb 58 hm).1 rfl
    rw [this]
    exact hun
  | cons c ds =>
    have hc : c = 58 := by
      simp only [plainPort, Bool.and_eq_true, decide_eq_true_eq] at hp
      exact hp.1
    subst hc
    have hds : (58 : Nat) ∉ ds := by
      intro hm
      have := hpb 58 (List.mem_cons_of_mem _ hm)
      simp only [plainPort, Bool.and_eq_true, decide_eq_true_eq, List.all_eq_true] at hp
      have := hp.2 58 hm
      simp at this
    rw [LastIndex_append_of_not_mem 58 ds hds hostname]
    simp only [List.drop_left']
    have hv : validOptionalPort (58 :: ds) = true := by
      simpa [validOptionalPort, plainPort] using hp
    rw [hv]
    exact hun

theorem parseAuthority_plain (hostname port : Bytes) (hh : plainHost hostname = true)
    (hp : plainPort port = true) :
    parseAuthority (hostname ++ port) = .ok (none, hostname ++ port) := by
  have hat : LastIndex (hostname ++ port) (str "@") = none := by
    rw [str_at]
    apply LastIndex_none_of_not_mem
    intro hm
    rcases List.mem_append.1 hm with hm | hm
    · exact (plainHost_byte hostname hh 64 hm).2.2.2.2.2.2.2.2.1 rfl
    · have := plainPort_byte port hp 64 hm
      omega
  unfold parseAuthority
  simp only [hat, parseHost_plain hostname port hh hp]

theorem split_query (pre query tail : Bytes) (h63 : 63 ∉ pre)
    (ht : (tail = [] ∧ query = []) ∨ tail = 63 :: query) :
    (if (HasSuffix (pre ++ tail) (str "?") && Count (pre ++ tail) 63 == 1) = true
      then (pre ++ tail).take ((pre ++ tail).length - 1)
      else (Cut (pre ++ tail) (str "?")).1) = pre ∧
    (if (HasSuffix (pre ++ tail) (str "?") && Count (pre ++ tail) 63 == 1) = true
      then []
      else (Cut (pre ++ tail) (str "?")).2.1) = query := by
  rw [str_question]
  have hc0 : List.count 63 pre = 0 := List.count_eq_zero.2 h63
  rcases ht with ⟨rfl, rfl⟩ | rfl
  · have hf : (HasSuffix (pre ++ []) [63] && Count (pre ++ []) 63 == 1) = false := by
      simp [Count, hc0]
    rw [hf]
    simp [Cut_of_not_mem 63 pre h63]
  · by_cases hf : (HasSuffix (pre ++ 63 :: query) [63] && Count (pre ++ 63 :: query) 63 == 1) = true
    · rw [if_pos hf, if_pos hf]
      simp only [Bool.and_eq_true, beq_iff_eq, Count, List.count_append, hc0,
        List.count_cons_self, Nat.zero_add, Nat.add_left_eq_self, List.count_eq_zero] at hf
      obtain ⟨hsuf, hcnt⟩ := hf
      have hq : query = [] := by
        by_contra hne
        unfold HasSuffix at hsuf
        rw [List.isSuffixOf_iff_suffix] at hsuf
        obtain ⟨t, ht⟩ := hsuf
        have hr := congrArg List.reverse ht
        simp only [List.reverse_append, List.reverse_cons, List.reverse_nil, List.nil_append,
          List.singleton_append, List.append_assoc] at hr
        cases hqr : query.reverse with
        | nil => exact hne (List.reverse_eq_nil_iff.1 hqr)
        | cons x xs =>
          rw [hqr] at hr
          simp only [List.cons_append, List.cons.injEq] at hr
          have hx : x ∈ query.reverse := by rw [hqr]; exact List.mem_cons_self _ _
          rw [← hr.1] at hx
          exact hcnt (List.mem_reverse.1 hx)
      subst hq
      simp
    · rw [if_neg hf, if_neg hf, Cut_append_of_not_mem 63 pre query h63]
      exact ⟨rfl, rfl⟩

theorem split_authority (hp path : Bytes) (h47 : 47 ∉ hp)
    (hpath : path = [] ∨ path.head? = some 47) :
    (path = [] ∧ Index (hp ++ path) (str "/") = none) ∨
      Index (hp ++ path) (str "/") = some hp.length := by
  rw [str_slash]
  cases path with
  | nil =>
    rw [List.append_nil, Index_none_of_not_mem 47 hp h47]
    exact Or.inl ⟨rfl, rfl⟩
  | cons c p =>
    have hc : c = 47 := by
      rcases hpath with h | h
      · cases h
      · simpa using h
    subst hc
    exact Or.inr (Index_append_of_not_mem 47 p hp h47)

theorem plainScheme_byte (scheme : Bytes) (hs : plainScheme scheme = true) :
    ∀ b ∈ scheme, (97 ≤ b ∧ b ≤ 122) ∨ (48 ≤ b ∧ b ≤ 57) ∨ b = 43 ∨ b = 45 ∨ b = 46 := by
  cases scheme with
  | nil => intro b hb; simp at hb
  | cons c s1 =>
    simp only [plainScheme, Bool.and_eq_true, decide_eq_true_eq, List.all_eq_true] at hs
    intro b hb
    rcases List.mem_cons.1 hb with rfl | hb
    · exact Or.inl hs.1
    · have := hs.2 b hb
      simpa using this

theorem plainPath_byte (path : Bytes) (hp : plainPath path = true) :
    ∀ b ∈ path, 32 ≤ b ∧ b ≠ 0x7f ∧ b ≠ 37 ∧ b ≠ 63 ∧ b ≠ 35 := by
  simp only [plainPath, decide_eq_true_eq, List.all_eq_true] at hp
  intro b hb
  have := hp.2 b hb
  simpa using this

theorem plainQuery_byte (query : Bytes) (hq : plainQuery query = true) :
    ∀ b ∈ query, 32 ≤ b ∧ b ≠ 0x7f ∧ b ≠ 35 := by
  simp only [plainQuery, List.all_eq_true] at hq
  intro b hb
  have := hq b hb
  simpa using this

/-- The text `scheme://hostname port path` followed by nothing or by `?query`,
all written plainly, parses into these components. -/
theorem parse_plain (scheme hostname port path query tail : Bytes)
    (hs : plainScheme scheme = true) (hh : plainHost hostname = true)
    (hp : plainPort port = true) (hpa : plainPath path = true)
    (hq : plainQuery query = true) (ht : (tail = [] ∧ query = []) ∨ tail = 63 :: query) :
    ∃ u, parse (scheme ++ 58 :: ((47 :: 47 :: (hostname ++ port ++ path)) ++ tail)) = .ok u ∧
      u.Scheme = scheme ∧ u.Host = hostname ++ port ∧ u.Path = path ∧ u.RawQuery = query := by
  have hsb := plainScheme_byte scheme hs
  have hhb := plainHost_byte hostname hh
  have hpb := plainPort_byte port hp
  have hpab := plainPath_byte path hpa
  have hqb := plainQuery_byte query hq
  have htb : ∀ b ∈ tail, 32 ≤ b ∧ b ≠ 0x7f ∧ b ≠ 35 := by
    rcases ht with ⟨rfl, _⟩ | rfl
    · intro b hb; simp at hb
    · intro b hb
      rcases List.mem_cons.1 hb with rfl | hb
      · omega
      · exact hqb b hb
  have hauth : ∀ b ∈ hostname ++ port, b ≠ 47 ∧ b ≠ 63 ∧ 32 ≤ b ∧ b ≠ 0x7f := by
    intro b hb
    rcases List.mem_append.1 hb with hb | hb
    · have := hhb b hb
      exact ⟨this.2.2.2.2.2.2.1, this.2.2.2.2.2.2.2.1, this.2.2.1, this.2.2.2.1⟩
    · have := hpb b hb
      omega
  have hne : scheme ≠ [] := by
    rintro rfl
    simp [plainScheme] at hs
  have hctl : stringContainsCTLByte
      (scheme ++ 58 :: ((47 :: 47 :: (hostname ++ port ++ path)) ++ tail)) = false := by
    unfold stringContainsCTLByte
    rw [List.any_eq_false]
    intro b hb
    simp only [List.mem_append, List.mem_cons] at hb
    have hb2 : 32 ≤ b ∧ b ≠ 0x7f := by
      rcases hb with hb | rfl | (rfl | rfl | (hb | hb) | hb) | hb
      · have := hsb b hb; omega
      · omega
      · omega
      · omega
      · have := hhb b hb
        exact ⟨this.2.2.1, this.2.2.2.1⟩
      · have := hpb b hb; omega
      · have := hpab b hb; omega
      · have := htb b hb; omega
    simp only [decide_eq_true_eq, not_or, not_lt]
    exact hb2
  have hstar : scheme ++ 58 :: ((47 :: 47 :: (hostname ++ port ++ path)) ++ tail) ≠ str "*" := by
    rw [str_star]
    cases scheme with
    | nil => exact absurd rfl hne
    | cons c s1 =>
      intro h
      have h1 := hsb c (List.mem_cons_self _ _)
      have h2 := congrArg List.length h
      simp at h2
  have h63 : 63 ∉ 47 :: 47 :: (hostname ++ port ++ path) := by
    intro hm
    simp only [List.mem_cons, List.mem_append] at hm
    rcases hm with h | h | (h | h) | h
    · omega
    · omega
    · exact (hhb 63 h).2.2.2.2.2.2.2.1 rfl
    · have := hpb 63 h; omega
    · exact (hpab 63 h).2.2.2.1 rfl
  have hsplit := split_query (47 :: 47 :: (hostname ++ port ++ path)) query tail h63 ht
  have h47 : 47 ∉ hostname ++ port := fun hm => (hauth 47 hm).1 rfl
  have hpath : path = [] ∨ path.head? = some 47 := by
    simp only [plainPath, decide_eq_true_eq] at hpa
    exact hpa.1
  have hsa := split_authority (hostname ++ port) path h47 hpath
  have hun : unescape path .encodePath = .ok path := by
    apply unescape_plain
    intro b hb
    exact ⟨(hpab b hb).2.2.1, fun h => by rcases h with h | h <;> cases h⟩
  have hpre1 : HasPrefix (47 :: 47 :: (hostname ++ port ++ path)) (str "/") = true := by
    rw [str_slash]
    simp [HasPrefix, List.isPrefixOf]
  have hpre2 : HasPrefix (47 :: 47 :: (hostname ++ port ++ path)) (str "//") = true := by
    rw [str_slashes]
    simp [HasPrefix, List.isPrefixOf]
  have hdrop : List.drop 2 (47 :: 47 :: (hostname ++ port ++ path)) = hostname ++ port ++ path :=
    rfl
  have hparse : parse (scheme ++ 58 :: ((47 :: 47 :: (hostname ++ port ++ path)) ++ tail)) =
      .ok { Scheme := scheme, Host := hostname ++ port, Path := path,
            ForceQuery := HasSuffix (47 :: 47 :: (hostname ++ port ++ path) ++ tail) (str "?") &&
              Count (47 :: 47 :: (hostname ++ port ++ path) ++ tail) 63 == 1,
            RawQuery := query } := by
    unfold parse
    rw [hctl]
    simp only [Bool.false_eq_true, if_false, if_neg hstar, getScheme_plain scheme _ hs,
      ToLower_plain scheme hs, hsplit.1, hsplit.2, hpre1, hpre2, Bool.not_true, false_and,
      ne_eq, hne, not_false_eq_true, true_or, and_self, if_true, hdrop]
    rcases hsa with ⟨hnil, hidx⟩ | hidx
    · subst hnil
      rw [hidx]
      simp only [List.append_nil, parseAuthority_plain hostname port hh hp]
      rfl
    · rw [hidx]
      simp only [List.take_left', List.drop_left', parseAuthority_plain hostname port hh hp, hun]
  exact ⟨_, hparse, rfl, rfl, rfl, rfl⟩

/-- The same for `Parse`: there is no fragment to cut off. -/
theorem Parse_plain (scheme hostname port path query tail : Bytes)
    (hs : plainScheme scheme = true) (hh : plainHost hostname = true)
    (hp : plainPort port = true) (hpa : plainPath path = true)
    (hq : plainQuery query = true) (ht : (tail = [] ∧ query = []) ∨ tail = 63 :: query) :
    ∃ u, Parse (scheme ++ str "://" ++ hostname ++ port ++ path ++ tail) = .ok u ∧
      u.Scheme = scheme ∧ u.Host = hostname ++ port ∧ u.Path = path ∧ u.RawQuery = query := by
  obtain ⟨u, hu, hres⟩ := parse_plain scheme hostname port path query tail hs hh hp hpa hq ht
  have heq : scheme ++ str "://" ++ hostname ++ port ++ path ++ tail =
      scheme ++ 58 :: ((47 :: 47 :: (hostname ++ port ++ path)) ++ tail) := by
    rw [str_scheme_sep]
    simp
  have hhash : 35 ∉ scheme ++ 58 :: ((47 :: 47 :: (hostname ++ port ++ path)) ++ tail) := by
    intro hb
    simp only [List.mem_append, List.mem_cons] at hb
    rcases hb with hb | hb | (hb | hb | (hb | hb) | hb) | hb
    · have := plainScheme_byte scheme hs 35 hb; omega
    · omega
    · omega
    · omega
    · exact (plainHost_byte hostname hh 35 hb).2.2.2.2.1 rfl
    · have := plainPort_byte port hp 35 hb; omega
    · exact (plainPath_byte path hpa 35 hb).2.2.2.2 rfl
    · rcases ht with ⟨rfl, _⟩ | rfl
      · simp at hb
      · rcases List.mem_cons.1 hb with hb | hb
        · omega
        · exact (plainQuery_byte query hq 35 hb).2.2 rfl
  refine ⟨u, ?_, hres⟩
  rw [heq]
  unfold Parse
  rw [str_hash, Cut_of_not_mem 35 _ hhash]
  simp only [hu, if_true]

set_option maxRecDepth 100000 in
/-- The results for a relative URL, a URL with a percent-escape in the path, a
URL with userinfo and a URL with a fragment, each with a query and a valid key:
the output does not start with the input. -/
theorem SignURL_output_not_extending_input :
    (SignURL (str "/path?x=1") (str "AAAAAAAAAAAAAAAAAAAAAA==") =
        (str ":///path?x=1&signature=yS45gFzijmlVS2C4eu6jDmHozdk=", none) ∧
      (str "/path?x=1").isPrefixOf
        (SignURL (str "/path?x=1") (str "AAAAAAAAAAAAAAAAAAAAAA==")).1 = false) ∧
    (SignURL (str "https://example.com/a%20b?x=1") (str "AAAAAAAAAAAAAAAAAAAAAA==") =
        (str "https://example.com/a b?x=1&signature=ZvRuxbNwhkDR2muXkjUC-IStKg8=", none) ∧
      (str "https://example.com/a%20b?x=1").isPrefixOf
        (SignURL (str "https://example.com/a%20b?x=1") (str "AAAAAAAAAAAAAAAAAAAAAA==")).1 =
          false) ∧
    (SignURL (str "https://user@example.com/path?x=1") (str "AAAAAAAAAAAAAAAAAAAAAA==") =
        (str "https://example.com/path?x=1&signature=yS45gFzijmlVS2C4eu6jDmHozdk=", none) ∧
      (str "https://user@example.com/path?x=1").isPrefixOf
        (SignURL (str "https://user@example.com/path?x=1")
          (str "AAAAAAAAAAAAAAAAAAAAAA==")).1 = false) ∧
    (SignURL (str "https://example.com/path?x=1#frag") (str "AAAAAAAAAAAAAAAAAAAAAA==") =
        (str "https://example.com/path?x=1&signature=yS45gFzijmlVS2C4eu6jDmHozdk=", none) ∧
      (str "https://example.com/path?x=1#frag").isPrefixOf
        (SignURL (str "https://example.com/path?x=1#frag")
          (str "AAAAAAAAAAAAAAAAAAAAAA==")).1 = false) := by
  have h1 : SignURL (str "/path?x=1") (str "AAAAAAAAAAAAAAAAAAAAAA==") =
      (str ":///path?x=1&signature=yS45gFzijmlVS2C4eu6jDmHozdk=", none) := by decide
  have h2 : SignURL (str "https://example.com/a%20b?x=1") (str "AAAAAAAAAAAAAAAAAAAAAA==") =
      (str "https://example.com/a b?x=1&signature=ZvRuxbNwhkDR2muXkjUC-IStKg8=", none) := by
    decide
  have h3 : SignURL (str "https://user@example.com/path?x=1")
      (str "AAAAAAAAAAAAAAAAAAAAAA==") =
      (str "https://example.com/path?x=1&signature=yS45gFzijmlVS2C4eu6jDmHozdk=", none) := by
    decide
  have h4 : SignURL (str "https://example.com/path?x=1#frag")
      (str "AAAAAAAAAAAAAAAAAAAAAA==") =
      (str "https://example.com/path?x=1&signature=yS45gFzijmlVS2C4eu6jDmHozdk=", none) := by
    decide
  refine ⟨⟨h1, ?_⟩, ⟨h2, ?_⟩, ⟨h3, ?_⟩, ⟨h4, ?_⟩⟩
  · rw [h1]; decide
  · rw [h2]; decide
  · rw [h3]; decide
  · rw [h4]; decide

/-- For a key that decodes to `k` and a URL text
`scheme://hostname port path ? query` written plainly (lower-case scheme, no
userinfo, a host name without `:`, `[` and escapes, an optional numeric port, a
path without escapes, no fragment), `SignURL` returns the input followed by
`&signature=` and the signature of `path ? query`. -/
theorem SignURL_appends_to_plain_url (key k scheme hostname port path query : Bytes)
    (hk : DecodeString key = (k, none))
    (hs : plainScheme scheme = true) (hh : plainHost hostname = true)
    (hp : plainPort port = true) (hpa : plainPath path = true)
    (hq : plainQuery query = true) :
    SignURL (scheme ++ str "://" ++ hostname ++ port ++ path ++ str "?" ++ query) key =
      (scheme ++ str "://" ++ hostname ++ port ++ path ++ str "?" ++ query ++
        str "&signature=" ++ EncodeToString (hmacSHA1 k (path ++ str "?" ++ query)), none) := by
  obtain ⟨u, hu, h1, h2, h3, h4⟩ :=
    Parse_plain scheme hostname port path query (63 :: query) hs hh hp hpa hq (Or.inr rfl)
  have heq : scheme ++ str "://" ++ hostname ++ port ++ path ++ str "?" ++ query =
      scheme ++ str "://" ++ hostname ++ port ++ path ++ 63 :: query := by
    rw [str_question]
    simp
  rw [heq, SignURL_of_ok hk hu, ← heq]
  simp only [reassembled, signature, payload, h1, h2, h3, h4, List.append_assoc]

set_option maxRecDepth 100000 in
/-- The plain case at the concrete scenario and at a URL with a port. -/
theorem SignURL_appends_to_plain_url_witness :
    SignURL (str "https://maps.example.com/maps/api/geocode/json?address=test")
        (str "AAAAAAAAAAAAAAAAAAAAAA==") =
      (str "https://maps.example.com/maps/api/geocode/json?address=test" ++
        str "&signature=XWUDmt0t3wAtw-HlbbdMi94xIXc=", none) ∧
    SignURL (str "https://example.com:8080/path?x=1") (str "AAAAAAAAAAAAAAAAAAAAAA==") =
      (str "https://example.com:8080/path?x=1" ++
        str "&signature=yS45gFzijmlVS2C4eu6jDmHozdk=", none) :=
  ⟨(SignURL_appends_to_plain_url (str "AAAAAAAAAAAAAAAAAAAAAA==") (List.replicate 16 0)
      (str "https") (str "maps.example.com") [] (str "/maps/api/geocode/json")
      (str "address=test") (by decide) (by decide) (by decide) (by decide) (by decide)
      (by decide)).trans (by decide),
    (SignURL_appends_to_plain_url (str "AAAAAAAAAAAAAAAAAAAAAA==") (List.replicate 16 0)
      (str "https") (str "example.com") (str ":8080") (str "/path")
      (str "x=1") (by decide) (by decide) (by decide) (by decide) (by decide)
      (by decide)).trans (by decide)⟩

set_option maxRecDepth 100000 in
/-- C8: where the code departs from the claim and from the doc comment of
`SignURL` ("returns a usable URL with signature appended").  For
`https://example.com/a%20b?x=1`, a text of URL characters only, the output holds
a raw space and does not start with the input; for `/path?x=1` the output starts
with `://` and is rejected by `Parse`; for `https://user@example.com/path?x=1`
the output has lost `user@`. -/
theorem SignURL_output_not_usable :
    (onlyURLCharacters (str "https://example.com/a%20b?x=1") = true ∧
      SignURL (str "https://example.com/a%20b?x=1") (str "AAAAAAAAAAAAAAAAAAAAAA==") =
        (str "https://example.com/a b?x=1&signature=ZvRuxbNwhkDR2muXkjUC-IStKg8=", none) ∧
      onlyURLCharacters
        (str "https://example.com/a b?x=1&signature=ZvRuxbNwhkDR2muXkjUC-IStKg8=") = false ∧
      (str "https://example.com/a%20b?x=1").isPrefixOf
        (str "https://example.com/a b?x=1&signature=ZvRuxbNwhkDR2muXkjUC-IStKg8=") = false) ∧
    (SignURL (str "/path?x=1") (str "AAAAAAAAAAAAAAAAAAAAAA==") =
        (str ":///path?x=1&signature=yS45gFzijmlVS2C4eu6jDmHozdk=", none) ∧
      Parse (str ":///path?x=1&signature=yS45gFzijmlVS2C4eu6jDmHozdk=") =
        .error ⟨str "parse", str ":///path?x=1&signature=yS45gFzijmlVS2C4eu6jDmHozdk=",
          .missingProtocolScheme⟩ ∧
      (str "/path?x=1").isPrefixOf
        (str ":///path?x=1&signature=yS45gFzijmlVS2C4eu6jDmHozdk=") = false) ∧
    (SignURL (str "https://user@example.com/path?x=1") (str "AAAAAAAAAAAAAAAAAAAAAA==") =
        (str "https://example.com/path?x=1&signature=yS45gFzijmlVS2C4eu6jDmHozdk=", none) ∧
      (str "https://user@example.com/path?x=1").isPrefixOf
        (str "https://example.com/path?x=1&signature=yS45gFzijmlVS2C4eu6jDmHozdk=") = false) := by
  have h := SignURL_output_not_extending_input
  exact ⟨⟨by decide, h.2.1.1, by decide, by decide⟩, ⟨h.1.1, by decide, by decide⟩,
    ⟨h.2.2.1.1, by decide⟩⟩

/-! ## C9: a URL without a query -/

set_option maxRecDepth 100000 in
/-- C9, as stated, fails: for `https://example.com/path` the output is the
input followed by `?&signature=` and the signature, not by `?signature=`. -/
theorem SignURL_separator_not_adapted :
    SignURL (str "https://example.com/path") (str "AAAAAAAAAAAAAAAAAAAAAA==") =
      (str "https://example.com/path?&signature=24Mqm42sx35SSYaEQw3IPlySYWg=", none) ∧
    SignURL (str "https://example.com/path") (str "AAAAAAAAAAAAAAAAAAAAAA==") ≠
      (str "https://example.com/path" ++ str "?signature=" ++
        str "24Mqm42sx35SSYaEQw3IPlySYWg=", none) ∧
    (str "https://example.com/path" ++ str "?signature=").isPrefixOf
      (SignURL (str "https://example.com/path") (str "AAAAAAAAAAAAAAAAAAAAAA==")).1 = false := by
  have h1 : SignURL (str "https://example.com/path") (str "AAAAAAAAAAAAAAAAAAAAAA==") =
      (str "https://example.com/path?&signature=24Mqm42sx35SSYaEQw3IPlySYWg=", none) := by decide
  refine ⟨h1, ?_, ?_⟩
  · rw [h1]; decide
  · rw [h1]; decide

/-- C9, amended: for a key that decodes to `k` and a URL text
`scheme://hostname port path` without query, written plainly, `SignURL` returns
the input followed by `?&signature=` and the signature of `path ?`: the
separator does not adapt, and `&` precedes `signature=`. -/
theorem SignURL_appends_to_plain_url_without_query (key k scheme hostname port path : Bytes)
    (hk : DecodeString key = (k, none))
    (hs : plainScheme scheme = true) (hh : plainHost hostname = true)
    (hp : plainPort port = true) (hpa : plainPath path = true) :
    SignURL (scheme ++ str "://" ++ hostname ++ port ++ path) key =
      (scheme ++ str "://" ++ hostname ++ port ++ path ++ str "?&signature=" ++
        EncodeToString (hmacSHA1 k (path ++ str "?")), none) := by
  obtain ⟨u, hu, h1, h2, h3, h4⟩ :=
    Parse_plain scheme hostname port path [] [] hs hh hp hpa rfl (Or.inl ⟨rfl, rfl⟩)
  rw [List.append_nil] at hu
  rw [SignURL_of_ok hk hu]
  have hsep : str "?&signature=" = str "?" ++ str "&signature=" := by decide
  simp only [reassembled, signature, payload, h1, h2, h3, h4, hsep, List.append_nil,
    List.append_assoc]

set_option maxRecDepth 100000 in
/-- C9, amended, at the URL `https://example.com/path`. -/
theorem SignURL_appends_to_plain_url_without_query_witness :
    SignURL (str "https://example.com/path") (str "AAAAAAAAAAAAAAAAAAAAAA==") =
      (str "https://example.com/path" ++ str "?&signature=" ++
        str "24Mqm42sx35SSYaEQw3IPlySYWg=", none) :=
  (SignURL_appends_to_plain_url_without_query (str "AAAAAAAAAAAAAAAAAAAAAA==")
    (List.replicate 16 0) (str "https") (str "example.com") [] (str "/path")
    (by decide) (by decide) (by decide) (by decide) (by decide)).trans (by decide)

/-! ## C11: sensitivity to the key -/

theorem hmacSHA1_eq_pads (key msg : Bytes) :
    hmacSHA1 key msg = sha1Sum (hmacOuterPad key ++ sha1Sum (hmacInnerPad key ++ msg)) :=
  rfl

theorem map_xor_injective (c : Nat) (a b : Bytes)
    (h : (a.map fun x => x ^^^ c) = b.map fun x => x ^^^ c) : a = b := by
  have hinj : Function.Injective fun x : Nat => x ^^^ c := by
    intro x y hxy
    exact Nat.xor_left_injective hxy
  exact List.map_injective_iff.2 hinj h

theorem hmacInnerPad_ne (k1 k2 msg : Bytes) (h : hmacKeyBlock k1 ≠ hmacKeyBlock k2) :
    hmacInnerPad k1 ++ msg ≠ hmacInnerPad k2 ++ msg := by
  intro he
  exact h (map_xor_injective 0x36 _ _ (List.append_cancel_right he))

theorem hmacOuterPad_ne (k1 k2 : Bytes) (h : hmacKeyBlock k1 ≠ hmacKeyBlock k2) :
    hmacOuterPad k1 ≠ hmacOuterPad k2 := by
  intro he
  exact h (map_xor_injective 0x5c _ _ he)

theorem hmacSHA1_of_keyBlock (k1 k2 msg : Bytes) (h : hmacKeyBlock k1 = hmacKeyBlock k2) :
    hmacSHA1 k1 msg = hmacSHA1 k2 msg := by
  simp only [hmacSHA1, h]

theorem SignURL_of_hmac_eq (rawURL K1 K2 k1 k2 : Bytes)
    (h1 : DecodeString K1 = (k1, none)) (h2 : DecodeString K2 = (k2, none))
    (h : ∀ msg, hmacSHA1 k1 msg = hmacSHA1 k2 msg) :
    SignURL rawURL K1 = SignURL rawURL K2 := by
  cases hp : Parse rawURL with
  | error e => rw [SignURL_of_url_error h1 hp, SignURL_of_url_error h2 hp]
  | ok u =>
    rw [SignURL_of_ok h1 hp, SignURL_of_ok h2 hp]
    simp only [signature, h]

set_option maxRecDepth 100000 in
/-- C11, as stated, fails: the keys `AAAA` and `AAAAAAAAAAAAAAAAAAAAAA==` are
different and valid, and `SignURL` appends the same signature for both. -/
theorem SignURL_different_keys_same_signature :
    str "AAAA" ≠ str "AAAAAAAAAAAAAAAAAAAAAA==" ∧
    DecodeString (str "AAAA") = ([0, 0, 0], none) ∧
    DecodeString (str "AAAAAAAAAAAAAAAAAAAAAA==") = (List.replicate 16 0, none) ∧
    SignURL (str "https://maps.example.com/maps/api/geocode/json?address=test") (str "AAAA") =
      (str "https://maps.example.com/maps/api/geocode/json?address=test&signature=XWUDmt0t3wAtw-HlbbdMi94xIXc=",
        none) ∧
    SignURL (str "https://maps.example.com/maps/api/geocode/json?address=test")
        (str "AAAAAAAAAAAAAAAAAAAAAA==") =
      (str "https://maps.example.com/maps/api/geocode/json?address=test&signature=XWUDmt0t3wAtw-HlbbdMi94xIXc=",
        none) := by
  refine ⟨by decide, by decide, by decide, by decide, by decide⟩

/-- C11, amended: for a URL that parses and two keys that decode, the
signature is the HMAC-SHA1 tag built from the key block of the secret (the
secret, replaced by its SHA-1 digest when longer than 64 bytes, right-padded
with zero bytes to 64 bytes).  Keys with the same key block give the same
result; keys with different key blocks enter the hash with different inner
inputs and different outer pads, so their signatures are not equal by
construction. -/
theorem SignURL_key_sensitivity (rawURL K1 K2 k1 k2 : Bytes) (u : URL)
    (h1 : DecodeString K1 = (k1, none)) (h2 : DecodeString K2 = (k2, none))
    (hu : Parse rawURL = .ok u) :
    (hmacKeyBlock k1 = hmacKeyBlock k2 → SignURL rawURL K1 = SignURL rawURL K2) ∧
    (hmacKeyBlock k1 ≠ hmacKeyBlock k2 →
      hmacInnerPad k1 ++ payload u ≠ hmacInnerPad k2 ++ payload u ∧
      hmacOuterPad k1 ≠ hmacOuterPad k2) ∧
    SignURL rawURL K1 =
      (reassembled u ++ str "&signature=" ++
        EncodeToString (sha1Sum (hmacOuterPad k1 ++ sha1Sum (hmacInnerPad k1 ++ payload u))),
        none) ∧
    SignURL rawURL K2 =
      (reassembled u ++ str "&signature=" ++
        EncodeToString (sha1Sum (hmacOuterPad k2 ++ sha1Sum (hmacInnerPad k2 ++ payload u))),
        none) := by
  refine ⟨?_, ?_, ?_, ?_⟩
  · intro h
    exact SignURL_of_hmac_eq rawURL K1 K2 k1 k2 h1 h2 fun msg => hmacSHA1_of_keyBlock k1 k2 msg h
  · intro h
    exact ⟨hmacInnerPad_ne k1 k2 _ h, hmacOuterPad_ne k1 k2 h⟩
  · rw [SignURL_of_ok h1 hu, signature, hmacSHA1_eq_pads]
  · rw [SignURL_of_ok h2 hu, signature, hmacSHA1_eq_pads]

set_option maxRecDepth 100000 in
/-- C11, amended, at the keys `AAAA` and `AQID`: the key blocks differ, and so
do the signatures. -/
theorem SignURL_key_sensitivity_witness :
    (hmacInnerPad [0, 0, 0] ++ str "/maps/api/geocode/json?address=test" ≠
        hmacInnerPad [1, 2, 3] ++ str "/maps/api/geocode/json?address=test" ∧
      hmacOuterPad [0, 0, 0] ≠ hmacOuterPad [1, 2, 3]) ∧
    SignURL (str "https://maps.example.com/maps/api/geocode/json?address=test") (str "AAAA") ≠
      SignURL (str "https://maps.example.com/maps/api/geocode/json?address=test") (str "AQID") :=
  ⟨(SignURL_key_sensitivity
      (str "https://maps.example.com/maps/api/geocode/json?address=test")
      (str "AAAA") (str "AQID") [0, 0, 0] [1, 2, 3]
      { Scheme := str "https", Host := str "maps.example.com",
        Path := str "/maps/api/geocode/json", RawQuery := str "address=test" }
      (by decide) (by decide) (by decide)).2.1 (by decide),
    by decide⟩

/-! ## C12: sensitivity to the path and the query -/

theorem append_cons_inj_of_not_mem (c : Nat) : ∀ (a a2 b b2 : Bytes), c ∉ a → c ∉ a2 →
    a ++ c :: b = a2 ++ c :: b2 → a = a2 ∧ b = b2
  | [], [], b, b2, _, _, h => by
    simp only [List.nil_append, List.cons.injEq, true_and] at h
    exact ⟨rfl, h⟩
  | [], y :: a2, b, b2, _, h2, h => by
    simp only [List.nil_append, List.cons_append, List.cons.injEq] at h
    exact absurd (h.1 ▸ List.mem_cons_self _ _) h2
  | x :: a, [], b, b2, h1, _, h => by
    simp only [List.nil_append, List.cons_append, List.cons.injEq] at h
    exact absurd (h.1 ▸ List.mem_cons_self _ _) h1
  | x :: a, y :: a2, b, b2, h1, h2, h => by
    simp only [List.cons_append, List.cons.injEq] at h
    have ih := append_cons_inj_of_not_mem c a a2 b b2
      (fun hm => h1 (List.mem_cons_of_mem _ hm)) (fun hm => h2 (List.mem_cons_of_mem _ hm)) h.2
    exact ⟨by rw [h.1, ih.1], ih.2⟩

set_option maxRecDepth 100000 in
/-- C12, as stated, fails: `https://h/a%3Fb?c` and `https://h/a?b?c` parse to
different pairs of path and raw query, and have the same signing payload
`/a?b?c`, so `SignURL` returns the same string for both. -/
theorem SignURL_different_pairs_same_payload :
    Parse (str "https://h/a%3Fb?c") =
      .ok { Scheme := str "https", Host := str "h", Path := str "/a?b", RawQuery := str "c" } ∧
    Parse (str "https://h/a?b?c") =
      .ok { Scheme := str "https", Host := str "h", Path := str "/a", RawQuery := str "b?c" } ∧
    (str "/a?b", str "c") ≠ (str "/a", str "b?c") ∧
    str "/a?b" ++ str "?" ++ str "c" = str "/a" ++ str "?" ++ str "b?c" ∧
    SignURL (str "https://h/a%3Fb?c") (str "AAAAAAAAAAAAAAAAAAAAAA==") =
      (str "https://h/a?b?c&signature=i89_blJ1G0Ck-oG-HhOswk2HiKI=", none) ∧
    SignURL (str "https://h/a?b?c") (str "AAAAAAAAAAAAAAAAAAAAAA==") =
      (str "https://h/a?b?c&signature=i89_blJ1G0Ck-oG-HhOswk2HiKI=", none) := by
  refine ⟨by decide, by decide, by decide, by decide, by decide, by decide⟩

/-- C12, amended: for a key that decodes and two URLs that parse to paths
without `?` and to different pairs of path and raw query, the signing payloads
`path ? rawQuery` are different, and each signature is the HMAC-SHA1 tag of its
payload. -/
theorem SignURL_url_sensitivity (U1 U2 key k : Bytes) (u1 u2 : URL)
    (hk : DecodeString key = (k, none)) (h1 : Parse U1 = .ok u1) (h2 : Parse U2 = .ok u2)
    (hp1 : 63 ∉ u1.Path) (hp2 : 63 ∉ u2.Path)
    (hne : (u1.Path, u1.RawQuery) ≠ (u2.Path, u2.RawQuery)) :
    u1.Path ++ str "?" ++ u1.RawQuery ≠ u2.Path ++ str "?" ++ u2.RawQuery ∧
    SignURL U1 key =
      (reassembled u1 ++ str "&signature=" ++
        EncodeToString (hmacSHA1 k (u1.Path ++ str "?" ++ u1.RawQuery)), none) ∧
    SignURL U2 key =
      (reassembled u2 ++ str "&signature=" ++
        EncodeToString (hmacSHA1 k (u2.Path ++ str "?" ++ u2.RawQuery)), none) := by
  refine ⟨?_, SignURL_of_ok hk h1, SignURL_of_ok hk h2⟩
  intro he
  rw [str_question] at he
  simp only [List.append_assoc, List.singleton_append] at he
  have := append_cons_inj_of_not_mem 63 _ _ _ _ hp1 hp2 he
  exact hne (by rw [this.1, this.2])

set_option maxRecDepth 100000 in
/-- C12, amended, at two URLs with different queries: the payloads differ, and
so do the signatures. -/
theorem SignURL_url_sensitivity_witness :
    str "/maps/api/geocode/json" ++ str "?" ++ str "address=test" ≠
      str "/maps/api/geocode/json" ++ str "?" ++ str "address=other" ∧
    SignURL (str "https://maps.example.com/maps/api/geocode/json?address=test")
        (str "AAAAAAAAAAAAAAAAAAAAAA==") ≠
      SignURL (str "https://maps.example.com/maps/api/geocode/json?address=other")
        (str "AAAAAAAAAAAAAAAAAAAAAA==") :=
  ⟨(SignURL_url_sensitivity
      (str "https://maps.example.com/maps/api/geocode/json?address=test")
      (str "https://maps.example.com/maps/api/geocode/json?address=other")
      (str "AAAAAAAAAAAAAAAAAAAAAA==") (List.replicate 16 0)
      { Scheme := str "https", Host := str "maps.example.com",
        Path := str "/maps/api/geocode/json", RawQuery := str "address=test" }
      { Scheme := str "https", Host := str "maps.example.com",
        Path := str "/maps/api/geocode/json", RawQuery := str "address=other" }
      (by decide) (by decide) (by decide) (by decide) (by decide) (by decide)).1,
    by decide⟩

/-! ## C13: the decoded secret of the concrete scenario -/

/-- C13, as stated, fails: the key `AAAAAAAAAAAAAAAAAAAAAA==` decodes to 16
bytes, not to 22. -/
theorem DecodeString_scenario_key_not_22_bytes :
    (DecodeString (str "AAAAAAAAAAAAAAAAAAAAAA==")).2 = none ∧
    (DecodeString (str "AAAAAAAAAAAAAAAAAAAAAA==")).1.length = 16 ∧
    (DecodeString (str "AAAAAAAAAAAAAAAAAAAAAA==")).1.length ≠ 22 := by
  decide

/-- C13, amended: the key `AAAAAAAAAAAAAAAAAAAAAA==` decodes without error to
16 zero bytes, and these 16 bytes are the HMAC key of `SignURL` for this key,
whatever URL parses. -/
theorem SignURL_scenario_key :
    DecodeString (str "AAAAAAAAAAAAAAAAAAAAAA==") = (List.replicate 16 0, none) ∧
    ∀ (rawURL : Bytes) (u : URL), Parse rawURL = .ok u →
      SignURL rawURL (str "AAAAAAAAAAAAAAAAAAAAAA==") =
        (u.Scheme ++ str "://" ++ u.Host ++ u.Path ++ str "?" ++ u.RawQuery ++
          str "&signature=" ++
          EncodeToString (hmacSHA1 (List.replicate 16 0) (u.Path ++ str "?" ++ u.RawQuery)),
          none) := by
  have hk : DecodeString (str "AAAAAAAAAAAAAAAAAAAAAA==") = (List.replicate 16 0, none) := by
    decide
  exact ⟨hk, fun rawURL u hu => SignURL_of_ok hk hu⟩

/-! ## C14: the key is examined first -/

/-- C14: a key that does not decode gives the key-decoding error whatever the
URL is, also when the URL is malformed too (`not-valid-base64!!!` with
`http://[invalid`), and the URL-parsing error is returned only when the key
decodes. -/
theorem SignURL_error_precedence :
    (∀ (rawURL key : Bytes) (e : CorruptInputError), (DecodeString key).2 = some e →
      SignURL rawURL key = ([], some ⟨.base64 e, str "failed parsing key"⟩)) ∧
    (Parse (str "http://[invalid") =
        .error ⟨str "parse", str "http://[invalid", .missingBracketInHost⟩ ∧
      SignURL (str "http://[invalid") (str "not-valid-base64!!!") =
        ([], some ⟨.base64 ⟨16⟩, str "failed parsing key"⟩)) ∧
    (∀ (rawURL key : Bytes) (e : UrlError) (m : Bytes),
      (SignURL rawURL key).2 = some ⟨.url e, m⟩ →
        (DecodeString key).2 = none ∧ Parse rawURL = .error e) := by
  refine ⟨fun rawURL key e h => SignURL_of_key_error rawURL h, ⟨by decide, by decide⟩, ?_⟩
  intro rawURL key e m h
  rcases SignURL_cases rawURL key with ⟨e2, _, hs⟩ | ⟨k, e2, hk, hu, hs⟩ | ⟨k, u, _, _, hs⟩
  · rw [hs] at h
    simp at h
  · rw [hs] at h
    simp only [Option.some.injEq, WrappedError.mk.injEq, Cause.url.injEq] at h
    rw [hk, hu, h.1]
    exact ⟨rfl, rfl⟩
  · rw [hs] at h
    simp at h

/-! ## C15: the raw query -/

theorem Index_append_left (c : Nat) (b : Bytes) :
    ∀ a : Bytes, c ∉ a → Index (a ++ b) [c] = (Index b [c]).map (· + a.length)
  | [], _ => by
    cases h : Index b [c] <;> simp [h]
  | x :: a, h => by
    have hx : c ≠ x := fun e => h (e ▸ List.mem_cons_self _ _)
    have ha : c ∉ a := fun e => h (List.mem_cons_of_mem _ e)
    have hstep : Index (x :: (a ++ b)) [c] = (Index (a ++ b) [c]).map (· + 1) := by
      simp [Index, List.isPrefixOf, hx]
    rw [List.cons_append, hstep, Index_append_left c b a ha]
    cases Index b [c] <;> simp [Nat.add_assoc]

theorem Cut_snd_append_left (c : Nat) (a b : Bytes) (h : c ∉ a) :
    (Cut (a ++ b) [c]).2.1 = (Cut b [c]).2.1 := by
  unfold Cut
  rw [Index_append_left c b a h]
  cases Index b [c] with
  | none => rfl
  | some i =>
    simp only [Option.map_some', List.length_singleton]
    have : i + a.length + 1 = a.length + (i + 1) := by omega
    rw [this, List.drop_append]

theorem getSchemeLoop_query (rawURL : Bytes) : ∀ (t pre : Bytes) (i : Nat) (r : Bytes × Bytes),
    rawURL = pre ++ t → 63 ∉ pre → getSchemeLoop rawURL i t = .ok r →
    (Cut rawURL [63]).2.1 = (Cut r.2 [63]).2.1
  | [], pre, i, r, _, _, h => by
    simp only [getSchemeLoop, Except.ok.injEq] at h
    subst h
    rfl
  | c :: t, pre, i, r, hraw, hpre, h => by
    have hraw2 : rawURL = (pre ++ [c]) ++ t := by
      rw [hraw]
      simp
    have hstep : c ≠ 63 → 63 ∉ pre ++ [c] := by
      intro hc hm
      rcases List.mem_append.1 hm with hm | hm
      · exact hpre hm
      · simp only [List.mem_singleton] at hm
        exact hc hm.symm
    unfold getSchemeLoop at h
    split at h
    · exact getSchemeLoop_query rawURL t (pre ++ [c]) (i + 1) r hraw2 (hstep (by omega)) h
    · split at h
      · split at h
        · simp only [Except.ok.injEq] at h
          subst h
          rfl
        · exact getSchemeLoop_query rawURL t (pre ++ [c]) (i + 1) r hraw2 (hstep (by omega)) h
      · split at h
        · split at h
          · simp at h
          · rename_i hc _
            simp only [Except.ok.injEq] at h
            subst h
            rw [hraw2]
            exact Cut_snd_append_left 63 (pre ++ [c]) t (hstep (by omega))
        · simp only [Except.ok.injEq] at h
          subst h
          rfl

theorem Cut_snd_of_force (rest : Bytes)
    (h : (HasSuffix rest (str "?") && Count rest 63 == 1) = true) :
    (Cut rest (str "?")).2.1 = [] := by
  rw [str_question] at h ⊢
  simp only [Bool.and_eq_true, beq_iff_eq] at h
  obtain ⟨hsuf, hcnt⟩ := h
  unfold HasSuffix at hsuf
  rw [List.isSuffixOf_iff_suffix] at hsuf
  obtain ⟨t, ht⟩ := hsuf
  subst ht
  have h63 : 63 ∉ t := by
    simp only [Count, List.count_append, List.count_singleton_self, Nat.add_left_eq_self,
      List.count_eq_zero] at hcnt
    exact hcnt
  rw [Cut_append_of_not_mem 63 t [] h63]

/-- The raw query that `parse` stores is the text after the first `?`. -/
theorem parse_RawQuery (s : Bytes) (u : URL) (hu : parse s = .ok u) :
    u.RawQuery = (Cut s (str "?")).2.1 := by
  unfold parse at hu
  split at hu
  · simp at hu
  · split at hu
    · rename_i hstar
      simp only [Except.ok.injEq] at hu
      subst hu
      rw [hstar]
      decide
    · split at hu
      · simp at hu
      · rename_i scheme0 rest0 hg
        have hq : (Cut s (str "?")).2.1 = (Cut rest0 (str "?")).2.1 := by
          rw [str_question]
          exact getSchemeLoop_query s s [] 0 (scheme0, rest0) rfl (by simp) hg
        have hr : (if (HasSuffix rest0 (str "?") && Count rest0 63 == 1) = true then []
            else (Cut rest0 (str "?")).2.1) = (Cut s (str "?")).2.1 := by
          rw [hq]
          split
          · rename_i hf
            exact (Cut_snd_of_force rest0 hf).symm
          · rfl
        simp only [hr] at hu
        repeat' split at hu
        all_goals first | (cases hu; done) | (cases hu; rfl)

/-- The raw query that `Parse` stores is the query portion of the text as
written. -/
theorem Parse_RawQuery (rawURL : Bytes) (u : URL) (hu : Parse rawURL = .ok u) :
    u.RawQuery = queryPortion rawURL := by
  unfold Parse at hu
  simp only at hu
  split at hu
  · simp at hu
  · rename_i url hp
    have hq := parse_RawQuery _ url hp
    unfold queryPortion
    split at hu
    · simp only [Except.ok.injEq] at hu
      subst hu
      exact hq
    · split at hu
      · simp at hu
      · simp only [Except.ok.injEq] at hu
        subst hu
        exact hq

/-- C15: for a key that decodes and a URL that parses, the raw query in the
signing payload and in the output is the query portion of the input as
written, byte for byte. -/
theorem SignURL_raw_query_preserved (rawURL key k : Bytes) (u : URL)
    (hk : DecodeString key = (k, none)) (hu : Parse rawURL = .ok u) :
    u.RawQuery = queryPortion rawURL ∧
    payload u = u.Path ++ str "?" ++ queryPortion rawURL ∧
    SignURL rawURL key =
      (u.Scheme ++ str "://" ++ u.Host ++ u.Path ++ str "?" ++ queryPortion rawURL ++
        str "&signature=" ++
        EncodeToString (hmacSHA1 k (u.Path ++ str "?" ++ queryPortion rawURL)), none) := by
  have hq := Parse_RawQuery rawURL u hu
  refine ⟨hq, by rw [payload, hq], ?_⟩
  rw [SignURL_of_ok hk hu, signature, payload, reassembled, hq]

set_option maxRecDepth 100000 in
/-- C15 at a URL whose query has percent-escapes, `+`, a repeated parameter and
parameters out of order, followed by a fragment. -/
theorem SignURL_raw_query_preserved_witness :
    queryPortion (str "https://example.com/path?b=%20x&a=1&a=2&b=+#frag") =
      str "b=%20x&a=1&a=2&b=+" ∧
    SignURL (str "https://example.com/path?b=%20x&a=1&a=2&b=+#frag")
        (str "AAAAAAAAAAAAAAAAAAAAAA==") =
      (str "https://example.com/path?b=%20x&a=1&a=2&b=+&signature=tFAbNlN8MoBV0yXjFnEWV7_nxi4=",
        none) :=
  have h := SignURL_raw_query_preserved
    (str "https://example.com/path?b=%20x&a=1&a=2&b=+#frag")
    (str "AAAAAAAAAAAAAAAAAAAAAA==") (List.replicate 16 0)
    { Scheme := str "https", Host := str "example.com", Path := str "/path",
      RawQuery := str "b=%20x&a=1&a=2&b=+", Fragment := str "frag" }
    (by decide) (by decide)
  ⟨h.1.symm, h.2.2.trans (by decide)⟩

/-! ## C16: what the signature depends on -/

/-- C16: for a key that decodes and two URLs that parse to the same path and
the same raw query, `SignURL` appends the same signature to both, whatever
their schemes, hosts and fragments are. -/
theorem SignURL_signature_of_path_and_query (U1 U2 key k : Bytes) (u1 u2 : URL)
    (hk : DecodeString key = (k, none)) (h1 : Parse U1 = .ok u1) (h2 : Parse U2 = .ok u2)
    (hp : u1.Path = u2.Path) (hq : u1.RawQuery = u2.RawQuery) :
    ∃ sig, SignURL U1 key = (reassembled u1 ++ str "&signature=" ++ sig, none) ∧
      SignURL U2 key = (reassembled u2 ++ str "&signature=" ++ sig, none) ∧
      afterLast (str "&signature=") (SignURL U1 key).1 = some sig ∧
      afterLast (str "&signature=") (SignURL U2 key).1 = some sig := by
  have hs : signature k u2 = signature k u1 := by
    simp only [signature, payload, hp, hq]
  refine ⟨signature k u1, SignURL_of_ok hk h1, ?_, ?_, ?_⟩
  · rw [SignURL_of_ok hk h2, hs]
  · rw [SignURL_of_ok hk h1]
    exact afterLast_signature _ _
  · rw [SignURL_of_ok hk h2, hs]
    exact afterLast_signature _ _

set_option maxRecDepth 100000 in
/-- C16 at two URLs that differ in scheme, userinfo, host, port and fragment. -/
theorem SignURL_signature_of_path_and_query_witness :
    ∃ sig,
      SignURL (str "https://maps.example.com/maps/api/geocode/json?address=test")
          (str "AAAAAAAAAAAAAAAAAAAAAA==") =
        (reassembled
            { Scheme := str "https", Host := str "maps.example.com",
              Path := str "/maps/api/geocode/json", RawQuery := str "address=test" } ++
          str "&signature=" ++ sig, none) ∧
      SignURL (str "http://user:pw@other.example.org:8080/maps/api/geocode/json?address=test#top")
          (str "AAAAAAAAAAAAAAAAAAAAAA==") =
        (reassembled
            { Scheme := str "http", User := some ⟨str "user", str "pw", true⟩,
              Host := str "other.example.org:8080", Path := str "/maps/api/geocode/json",
              RawQuery := str "address=test", Fragment := str "top" } ++
          str "&signature=" ++ sig, none) ∧
      afterLast (str "&signature=")
          (SignURL (str "https://maps.example.com/maps/api/geocode/json?address=test")
            (str "AAAAAAAAAAAAAAAAAAAAAA==")).1 = some sig ∧
      afterLast (str "&signature=")
          (SignURL
            (str "http://user:pw@other.example.org:8080/maps/api/geocode/json?address=test#top")
            (str "AAAAAAAAAAAAAAAAAAAAAA==")).1 = some sig :=
  SignURL_signature_of_path_and_query
    (str "https://maps.example.com/maps/api/geocode/json?address=test")
    (str "http://user:pw@other.example.org:8080/maps/api/geocode/json?address=test#top")
    (str "AAAAAAAAAAAAAAAAAAAAAA==") (List.replicate 16 0) _ _
    (by decide) (by decide) (by decide) (by decide) (by decide)

/-! ## C17: the path is signed in decoded form -/

theorem unescapeCheck_wellEscaped : ∀ p : Bytes, wellEscaped p = true →
    unescapeCheck .encodePath p = none
  | [], _ => by simp [unescapeCheck]
  | c :: rest, h => by
    unfold wellEscaped at h
    unfold unescapeCheck
    by_cases hc : c = 37
    · rw [if_pos hc] at h ⊢
      match rest, h with
      | a :: b :: rest2, h =>
        simp only [Bool.and_eq_true] at h
        have ih := unescapeCheck_wellEscaped rest2 h.2
        simp [h.1.1, h.1.2, ih]
    · rw [if_neg hc] at h ⊢
      have ih := unescapeCheck_wellEscaped rest h
      simp [ih]

theorem escapedPath_byte (path : Bytes) (hp : escapedPath path = true) :
    ∀ b ∈ path, 32 ≤ b ∧ b ≠ 0x7f ∧ b ≠ 63 ∧ b ≠ 35 := by
  simp only [escapedPath, decide_eq_true_eq, List.all_eq_true] at hp
  intro b hb
  have := hp.2.1 b hb
  simpa using this

theorem unescape_escapedPath (path : Bytes) (hp : escapedPath path = true) :
    unescape path .encodePath = .ok (unescapeBuild path) := by
  simp only [escapedPath, decide_eq_true_eq] at hp
  simp only [unescape, unescapeCheck_wellEscaped path hp.2.2]

theorem unescapeBuild_length_le : ∀ p : Bytes, (unescapeBuild p).length ≤ p.length
  | [] => by simp [unescapeBuild]
  | c :: rest => by
    unfold unescapeBuild
    by_cases hc : c = 37
    · rw [if_pos hc]
      match rest with
      | [] => simp
      | [a] => simp
      | a :: b :: rest2 =>
        have ih := unescapeBuild_length_le rest2
        simp only [List.length_cons]
        omega
    · rw [if_neg hc]
      have ih := unescapeBuild_length_le rest
      simp only [List.length_cons]
      omega

theorem unescapeBuild_length_lt : ∀ p : Bytes, 37 ∈ p → (unescapeBuild p).length < p.length
  | [], h => by simp at h
  | c :: rest, h => by
    unfold unescapeBuild
    by_cases hc : c = 37
    · rw [if_pos hc]
      match rest with
      | [] => simp
      | [a] => simp
      | a :: b :: rest2 =>
        have ih := unescapeBuild_length_le rest2
        simp only [List.length_cons]
        omega
    · rw [if_neg hc]
      have hm : 37 ∈ rest := by
        rcases List.mem_cons.1 h with h | h
        · exact absurd h.symm hc
        · exact h
      have ih := unescapeBuild_length_lt rest hm
      simp only [List.length_cons]
      omega

/-- The text `scheme://hostname port path` followed by nothing or by `?query`,
where the path may hold percent-escapes, parses into these components, with
the path decoded. -/
theorem parse_escaped (scheme hostname port path query tail : Bytes)
    (hs : plainScheme scheme = true) (hh : plainHost hostname = true)
    (hp : plainPort port = true) (hpa : escapedPath path = true)
    (hq : plainQuery query = true) (ht : (tail = [] ∧ query = []) ∨ tail = 63 :: query) :
    ∃ u, parse (scheme ++ 58 :: ((47 :: 47 :: (hostname ++ port ++ path)) ++ tail)) = .ok u ∧
      u.Scheme = scheme ∧ u.Host = hostname ++ port ∧ u.Path = unescapeBuild path ∧ u.RawQuery = query := by
  have hsb := plainScheme_byte scheme hs
  have hhb := plainHost_byte hostname hh
  have hpb := plainPort_byte port hp
  have hpab := escapedPath_byte path hpa
  have hqb := plainQuery_byte query hq
  have htb : ∀ b ∈ tail, 32 ≤ b ∧ b ≠ 0x7f ∧ b ≠ 35 := by
    rcases ht with ⟨rfl, _⟩ | rfl
    · intro b hb; simp at hb
    · intro b hb
      rcases List.mem_cons.1 hb with rfl | hb
      · omega
      · exact hqb b hb
  have hauth : ∀ b ∈ hostname ++ port, b ≠ 47 ∧ b ≠ 63 ∧ 32 ≤ b ∧ b ≠ 0x7f := by
    intro b hb
    rcases List.mem_append.1 hb with hb | hb
    · have := hhb b hb
      exact ⟨this.2.2.2.2.2.2.1, this.2.2.2.2.2.2.2.1, this.2.2.1, this.2.2.2.1⟩
    · have := hpb b hb
      omega
  have hne : scheme ≠ [] := by
    rintro rfl
    simp [plainScheme] at hs
  have hctl : stringContainsCTLByte
      (scheme ++ 58 :: ((47 :: 47 :: (hostname ++ port ++ path)) ++ tail)) = false := by
    unfold stringContainsCTLByte
    rw [List.any_eq_false]
    intro b hb
    simp only [List.mem_append, List.mem_cons] at hb
    have hb2 : 32 ≤ b ∧ b ≠ 0x7f := by
      rcases hb with hb | rfl | (rfl | rfl | (hb | hb) | hb) | hb
      · have := hsb b hb; omega
      · omega
      · omega
      · omega
      · have := hhb b hb
        exact ⟨this.2.2.1, this.2.2.2.1⟩
      · have := hpb b hb; omega
      · have := hpab b hb; omega
      · have := htb b hb; omega
    simp only [decide_eq_true_eq, not_or, not_lt]
    exact hb2
  have hstar : scheme ++ 58 :: ((47 :: 47 :: (hostname ++ port ++ path)) ++ tail) ≠ str "*" := by
    rw [str_star]
    cases scheme with
    | nil => exact absurd rfl hne
    | cons c s1 =>
      intro h
      have h1 := hsb c (List.mem_cons_self _ _)
      have h2 := congrArg List.length h
      simp at h2
  have h63 : 63 ∉ 47 :: 47 :: (hostname ++ port ++ path) := by
    intro hm
    simp only [List.mem_cons, List.mem_append] at hm
    rcases hm with h | h | (h | h) | h
    · omega
    · omega
    · exact (hhb 63 h).2.2.2.2.2.2.2.1 rfl
    · have := hpb 63 h; omega
    · exact (hpab 63 h).2.2.1 rfl
  have hsplit := split_query (47 :: 47 :: (hostname ++ port ++ path)) query tail h63 ht
  have h47 : 47 ∉ hostname ++ port := fun hm => (hauth 47 hm).1 rfl
  have hpath : path = [] ∨ path.head? = some 47 := by
    simp only [escapedPath, decide_eq_true_eq] at hpa
    exact hpa.1
  have hsa := split_authority (hostname ++ port) path h47 hpath
  have hun : unescape path .encodePath = .ok (unescapeBuild path) :=
    unescape_escapedPath path hpa
  have hpre1 : HasPrefix (47 :: 47 :: (hostname ++ port ++ path)) (str "/") = true := by
    rw [str_slash]
    simp [HasPrefix, List.isPrefixOf]
  have hpre2 : HasPrefix (47 :: 47 :: (hostname ++ port ++ path)) (str "//") = true := by
    rw [str_slashes]
    simp [HasPrefix, List.isPrefixOf]
  have hdrop : List.drop 2 (47 :: 47 :: (hostname ++ port ++ path)) = hostname ++ port ++ path :=
    rfl
  have hparse : parse (scheme ++ 58 :: ((47 :: 47 :: (hostname ++ port ++ path)) ++ tail)) =
      .ok { Scheme := scheme, Host := hostname ++ port, Path := unescapeBuild path,
            ForceQuery := HasSuffix (47 :: 47 :: (hostname ++ port ++ path) ++ tail) (str "?") &&
              Count (47 :: 47 :: (hostname ++ port ++ path) ++ tail) 63 == 1,
            RawQuery := query } := by
    unfold parse
    rw [hctl]
    simp only [Bool.false_eq_true, if_false, if_neg hstar, getScheme_plain scheme _ hs,
      ToLower_plain scheme hs, hsplit.1, hsplit.2, hpre1, hpre2, Bool.not_true, false_and,
      ne_eq, hne, not_false_eq_true, true_or, and_self, if_true, hdrop]
    rcases hsa with ⟨hnil, hidx⟩ | hidx
    · subst hnil
      rw [hidx]
      simp only [List.append_nil, parseAuthority_plain hostname port hh hp]
      rfl
    · rw [hidx]
      simp only [List.take_left', List.drop_left', parseAuthority_plain hostname port hh hp, hun]
  exact ⟨_, hparse, rfl, rfl, rfl, rfl⟩

/-- The same for `Parse`. -/
theorem Parse_escaped (scheme hostname port path query tail : Bytes)
    (hs : plainScheme scheme = true) (hh : plainHost hostname = true)
    (hp : plainPort port = true) (hpa : escapedPath path = true)
    (hq : plainQuery query = true) (ht : (tail = [] ∧ query = []) ∨ tail = 63 :: query) :
    ∃ u, Parse (scheme ++ str "://" ++ hostname ++ port ++ path ++ tail) = .ok u ∧
      u.Scheme = scheme ∧ u.Host = hostname ++ port ∧ u.Path = unescapeBuild path ∧ u.RawQuery = query := by
  obtain ⟨u, hu, hres⟩ := parse_escaped scheme hostname port path query tail hs hh hp hpa hq ht
  have heq : scheme ++ str "://" ++ hostname ++ port ++ path ++ tail =
      scheme ++ 58 :: ((47 :: 47 :: (hostname ++ port ++ path)) ++ tail) := by
    rw [str_scheme_sep]
    simp
  have hhash : 35 ∉ scheme ++ 58 :: ((47 :: 47 :: (hostname ++ port ++ path)) ++ tail) := by
    intro hb
    simp only [List.mem_append, List.mem_cons] at hb
    rcases hb with hb | hb | (hb | hb | (hb | hb) | hb) | hb
    · have := plainScheme_byte scheme hs 35 hb; omega
    · omega
    · omega
    · omega
    · exact (plainHost_byte hostname hh 35 hb).2.2.2.2.1 rfl
    · have := plainPort_byte port hp 35 hb; omega
    · exact (escapedPath_byte path hpa 35 hb).2.2.2 rfl
    · rcases ht with ⟨rfl, _⟩ | rfl
      · simp at hb
      · rcases List.mem_cons.1 hb with hb | hb
        · omega
        · exact (plainQuery_byte query hq 35 hb).2.2 rfl
  refine ⟨u, ?_, hres⟩
  rw [heq]
  unfold Parse
  rw [str_hash, Cut_of_not_mem 35 _ hhash]
  simp only [hu, if_true]


theorem Index_some_length : ∀ (s sep : Bytes) (i : Nat), Index s sep = some i →
    sep.length ≤ s.length
  | [], sep, i, h => by
    unfold Index at h
    split at h
    · rename_i he
      rw [he]
    · simp at h
  | c :: rest, sep, i, h => by
    unfold Index at h
    split at h
    · rename_i hp
      exact (List.isPrefixOf_iff_prefix.1 hp).length_le
    · cases hr : Index rest sep with
      | none => rw [hr] at h; simp at h
      | some j =>
        have := Index_some_length rest sep j hr
        simp only [List.length_cons]
        omega

theorem Contains_of_shorter (s sep : Bytes) (h : s.length < sep.length) :
    Contains s sep = false := by
  unfold Contains
  cases hi : Index s sep with
  | none => rfl
  | some i =>
    have := Index_some_length s sep i hi
    omega

theorem HasPrefix_of_longer (d q p : Bytes) (hl : d.length < p.length) (h63 : 63 ∉ p) :
    HasPrefix (d ++ 63 :: q) p = false := by
  cases hp : HasPrefix (d ++ 63 :: q) p with
  | false => rfl
  | true =>
    exfalso
    unfold HasPrefix at hp
    obtain ⟨t, ht⟩ := List.isPrefixOf_iff_prefix.1 hp
    rcases List.append_eq_append_iff.1 ht with ⟨a, ha, _⟩ | ⟨c, hc, hc2⟩
    · have := congrArg List.length ha
      simp only [List.length_append] at this
      omega
    · cases c with
      | nil =>
        have := congrArg List.length hc
        simp only [List.length_append, List.length_nil] at this
        omega
      | cons x c =>
        simp only [List.cons_append, List.cons.injEq] at hc2
        apply h63
        rw [hc, ← hc2.1]
        simp

set_option maxRecDepth 100000 in
/-- C17, as stated, fails in its last part: in `https://h/%41?x=/%41` the path
text `/%41` has a percent-escape, and it is a substring of the signing payload
`/A?x=/%41`. -/
theorem SignURL_path_text_inside_payload :
    Parse (str "https://h/%41?x=/%41") =
      .ok { Scheme := str "https", Host := str "h", Path := str "/A",
            RawQuery := str "x=/%41" } ∧
    37 ∈ str "/%41" ∧
    Contains (str "/A" ++ str "?" ++ str "x=/%41") (str "/%41") = true ∧
    SignURL (str "https://h/%41?x=/%41") (str "AAAAAAAAAAAAAAAAAAAAAA==") =
      (str "https://h/A?x=/%41&signature=BFheYI-6OGZC7qvySbCw4rChbbg=", none) := by
  refine ⟨by decide, by decide, by decide, by decide⟩

/-- C17, amended: the path that is signed and emitted is the percent-decoded
path.  Two URLs that parse to the same scheme, host, path and raw query get the
same result; in particular two texts `scheme://hostname port path ? query` whose
path texts decode to the same path do, and the result holds the decoded path.
When the path text has a percent-escape, the signing payload does not start
with the path text and the decoded path does not contain it. -/
theorem SignURL_signs_decoded_path (key k scheme hostname port p1 p2 query : Bytes)
    (hk : DecodeString key = (k, none))
    (hs : plainScheme scheme = true) (hh : plainHost hostname = true)
    (hp : plainPort port = true) (h1 : escapedPath p1 = true) (h2 : escapedPath p2 = true)
    (hq : plainQuery query = true) (hd : unescapeBuild p1 = unescapeBuild p2) :
    (∀ (U1 U2 : Bytes) (u1 u2 : URL), Parse U1 = .ok u1 → Parse U2 = .ok u2 →
      u1.Scheme = u2.Scheme → u1.Host = u2.Host → u1.Path = u2.Path →
      u1.RawQuery = u2.RawQuery → SignURL U1 key = SignURL U2 key) ∧
    SignURL (scheme ++ str "://" ++ hostname ++ port ++ p1 ++ str "?" ++ query) key =
      (scheme ++ str "://" ++ hostname ++ port ++ unescapeBuild p1 ++ str "?" ++ query ++
        str "&signature=" ++
        EncodeToString (hmacSHA1 k (unescapeBuild p1 ++ str "?" ++ query)), none) ∧
    SignURL (scheme ++ str "://" ++ hostname ++ port ++ p2 ++ str "?" ++ query) key =
      SignURL (scheme ++ str "://" ++ hostname ++ port ++ p1 ++ str "?" ++ query) key ∧
    (37 ∈ p1 →
      HasPrefix (unescapeBuild p1 ++ str "?" ++ query) p1 = false ∧
      Contains (unescapeBuild p1) p1 = false) := by
  have key_fact : ∀ p : Bytes, escapedPath p = true →
      SignURL (scheme ++ str "://" ++ hostname ++ port ++ p ++ str "?" ++ query) key =
        (scheme ++ str "://" ++ hostname ++ port ++ unescapeBuild p ++ str "?" ++ query ++
          str "&signature=" ++
          EncodeToString (hmacSHA1 k (unescapeBuild p ++ str "?" ++ query)), none) := by
    intro p hpe
    obtain ⟨u, hu, e1, e2, e3, e4⟩ :=
      Parse_escaped scheme hostname port p query (63 :: query) hs hh hp hpe hq (Or.inr rfl)
    have heq : scheme ++ str "://" ++ hostname ++ port ++ p ++ str "?" ++ query =
        scheme ++ str "://" ++ hostname ++ port ++ p ++ 63 :: query := by
      rw [str_question]
      simp
    rw [heq, SignURL_of_ok hk hu]
    simp only [reassembled, signature, payload, e1, e2, e3, e4, List.append_assoc]
  refine ⟨?_, key_fact p1 h1, ?_, ?_⟩
  · intro U1 U2 u1 u2 hu1 hu2 e1 e2 e3 e4
    rw [SignURL_of_ok hk hu1, SignURL_of_ok hk hu2]
    simp only [reassembled, signature, payload, e1, e2, e3, e4]
  · rw [key_fact p1 h1, key_fact p2 h2, hd]
  · intro h37
    have hlt := unescapeBuild_length_lt p1 h37
    have h63 : 63 ∉ p1 := fun hm => (escapedPath_byte p1 h1 63 hm).2.2.1 rfl
    refine ⟨?_, Contains_of_shorter _ _ hlt⟩
    rw [str_question, List.append_assoc]
    exact HasPrefix_of_longer _ _ _ hlt h63

set_option maxRecDepth 100000 in
/-- C17, amended, at `https://h/%41?x=1` and `https://h/A?x=1`. -/
theorem SignURL_signs_decoded_path_witness :
    SignURL (str "https://h/%41?x=1") (str "AAAAAAAAAAAAAAAAAAAAAA==") =
      (str "https://h/A?x=1&signature=Dn4qQ9i6oyeqZPanAbK5ENqyQZA=", none) ∧
    SignURL (str "https://h/A?x=1") (str "AAAAAAAAAAAAAAAAAAAAAA==") =
      SignURL (str "https://h/%41?x=1") (str "AAAAAAAAAAAAAAAAAAAAAA==") ∧
    HasPrefix (str "/A?x=1") (str "/%41") = false ∧
    Contains (str "/A") (str "/%41") = false :=
  have h := SignURL_signs_decoded_path (str "AAAAAAAAAAAAAAAAAAAAAA==") (List.replicate 16 0)
    (str "https") (str "h") [] (str "/%41") (str "/A") (str "x=1")
    (by decide) (by decide) (by decide) (by decide) (by decide) (by decide) (by decide)
    (by decide)
  ⟨h.2.1.trans (by decide), h.2.2.1, (h.2.2.2 (by decide)).1, (h.2.2.2 (by decide)).2⟩

/-! ## C18: keys that differ by trailing zero bytes -/

theorem hmacKeyBlock_of_le (k : Bytes) (h : k.length ≤ 64) :
    hmacKeyBlock k = k ++ List.replicate (64 - k.length) 0 := by
  have hn : ¬ 64 < k.length := by omega
  simp only [hmacKeyBlock, sha1BlockSize, if_neg hn]

/-- C18: two keys whose decoded secrets are at most 64 bytes long and equal
after right-padding with zero bytes to 64 bytes make `SignURL` return the same
result for every URL. -/
theorem SignURL_zero_padded_keys (rawURL K1 K2 k1 k2 : Bytes)
    (h1 : DecodeString K1 = (k1, none)) (h2 : DecodeString K2 = (k2, none))
    (hl1 : k1.length ≤ 64) (hl2 : k2.length ≤ 64)
    (hpad : k1 ++ List.replicate (64 - k1.length) 0 = k2 ++ List.replicate (64 - k2.length) 0) :
    SignURL rawURL K1 = SignURL rawURL K2 := by
  apply SignURL_of_hmac_eq rawURL K1 K2 k1 k2 h1 h2
  intro msg
  apply hmacSHA1_of_keyBlock
  rw [hmacKeyBlock_of_le k1 hl1, hmacKeyBlock_of_le k2 hl2, hpad]

set_option maxRecDepth 100000 in
/-- C18 at the empty key and the key `AAAAAAAAAAAAAAAAAAAAAA==`. -/
theorem SignURL_zero_padded_keys_witness :
    SignURL (str "https://maps.example.com/maps/api/geocode/json?address=test") (str "") =
      SignURL (str "https://maps.example.com/maps/api/geocode/json?address=test")
        (str "AAAAAAAAAAAAAAAAAAAAAA==") ∧
    SignURL (str "https://maps.example.com/maps/api/geocode/json?address=test") (str "") =
      (str "https://maps.example.com/maps/api/geocode/json?address=test&signature=XWUDmt0t3wAtw-HlbbdMi94xIXc=",
        none) :=
  have h := SignURL_zero_padded_keys
    (str "https://maps.example.com/maps/api/geocode/json?address=test") (str "")
    (str "AAAAAAAAAAAAAAAAAAAAAA==") [] (List.replicate 16 0)
    (by decide) (by decide) (by decide) (by decide) (by decide)
  ⟨h, h.trans (by decide)⟩

/-! ## C19: the shape of the signature -/

theorem bigEndian_length : ∀ (w x : Nat), (bigEndian w x).length = w
  | 0, _ => rfl
  | w + 1, x => by simp [bigEndian, bigEndian_length w x]

theorem sha1Sum_length (msg : Bytes) : (sha1Sum msg).length = 20 := by
  simp [sha1Sum, bigEndian_length]

theorem hmacSHA1_length (key msg : Bytes) : (hmacSHA1 key msg).length = 20 := by
  simp only [hmacSHA1, sha1Sum_length]

theorem encodeByte_lt : ∀ i, i < 64 → encodeByte i ∈ encodeURL := by
  decide

theorem encodeByte_mask_mem (x : Nat) : encodeByte (x &&& 0x3F) ∈ encodeURL := by
  apply encodeByte_lt
  have h : x &&& 0x3F < 2 ^ 6 := Nat.and_lt_two_pow x (by norm_num)
  simpa using h

/-- The base64url text of `3 * n + 2` bytes: `4 * n + 3` characters of the
alphabet followed by one `=`. -/
theorem EncodeToString_shape : ∀ (n : Nat) (l : Bytes), l.length = 3 * n + 2 →
    ∃ body, EncodeToString l = body ++ [padChar] ∧ body.length = 4 * n + 3 ∧
      ∀ x ∈ body, x ∈ encodeURL
  | 0, l, h => by
    match l, h with
    | [a, b], _ =>
      refine ⟨[encodeByte ((a <<< 16 ||| b <<< 8) >>> 18 &&& 0x3F),
        encodeByte ((a <<< 16 ||| b <<< 8) >>> 12 &&& 0x3F),
        encodeByte ((a <<< 16 ||| b <<< 8) >>> 6 &&& 0x3F)], rfl, rfl, ?_⟩
      intro x hx
      simp only [List.mem_cons, List.mem_singleton, List.not_mem_nil, or_false] at hx
      rcases hx with rfl | rfl | rfl <;> exact encodeByte_mask_mem _
  | n + 1, l, h => by
    match l, h with
    | a :: b :: c :: rest, h =>
      have hr : rest.length = 3 * n + 2 := by
        simp only [List.length_cons] at h
        omega
      obtain ⟨body, hb, hlen, hmem⟩ := EncodeToString_shape n rest hr
      refine ⟨encodeByte ((a <<< 16 ||| b <<< 8 ||| c) >>> 18 &&& 0x3F) ::
        encodeByte ((a <<< 16 ||| b <<< 8 ||| c) >>> 12 &&& 0x3F) ::
        encodeByte ((a <<< 16 ||| b <<< 8 ||| c) >>> 6 &&& 0x3F) ::
        encodeByte ((a <<< 16 ||| b <<< 8 ||| c) &&& 0x3F) :: body, ?_, ?_, ?_⟩
      · simp only [EncodeToString, hb, List.cons_append]
      · simp only [List.length_cons, hlen]
        omega
      · intro x hx
        simp only [List.mem_cons] at hx
        rcases hx with rfl | rfl | rfl | rfl | hx
        · exact encodeByte_mask_mem _
        · exact encodeByte_mask_mem _
        · exact encodeByte_mask_mem _
        · exact encodeByte_mask_mem _
        · exact hmem x hx

theorem alphabet_not_reserved : ∀ c ∈ padChar :: encodeURL, c ∉ str "+/&?#" := by
  decide

/-- C19: in every successful call the appended signature is 27 characters of
the URL-safe alphabet followed by `=`, 28 characters in all, none of them `+`,
`/`, `&`, `?` or `#`, and the output ends with `&signature=` followed by
them. -/
theorem SignURL_signature_shape (U K S : Bytes) (h : SignURL U K = (S, none)) :
    ∃ k u body, DecodeString K = (k, none) ∧ Parse U = .ok u ∧
      EncodeToString (hmacSHA1 k (u.Path ++ str "?" ++ u.RawQuery)) = body ++ [padChar] ∧
      body.length = 27 ∧ (body ++ [padChar]).length = 28 ∧
      (∀ c ∈ body, c ∈ encodeURL) ∧
      (∀ c ∈ body ++ [padChar], c ∉ str "+/&?#") ∧
      S = u.Scheme ++ str "://" ++ u.Host ++ u.Path ++ str "?" ++ u.RawQuery ++
        str "&signature=" ++ (body ++ [padChar]) := by
  rcases SignURL_cases U K with ⟨e, _, he⟩ | ⟨k, e, _, _, he⟩ | ⟨k, u, hk, hu, hs⟩
  · rw [he] at h
    simp at h
  · rw [he] at h
    simp at h
  · obtain ⟨body, hb, hlen, hmem⟩ :=
      EncodeToString_shape 6 (hmacSHA1 k (u.Path ++ str "?" ++ u.RawQuery))
        (hmacSHA1_length _ _)
    refine ⟨k, u, body, hk, hu, hb, hlen, by simp [hlen], hmem, ?_, ?_⟩
    · intro c hc
      apply alphabet_not_reserved
      rcases List.mem_append.1 hc with hc | hc
      · exact List.mem_cons_of_mem _ (hmem c hc)
      · simp only [List.mem_singleton] at hc
        exact hc ▸ List.mem_cons_self _ _
    · rw [hs] at h
      have hS : S = reassembled u ++ str "&signature=" ++ signature k u :=
        (congrArg Prod.fst h).symm
      rw [hS, signature, payload, hb, reassembled]

set_option maxRecDepth 100000 in
/-- C19 at the concrete scenario. -/
theorem SignURL_signature_shape_witness :
    ∃ k u body, DecodeString (str "AAAAAAAAAAAAAAAAAAAAAA==") = (k, none) ∧
      Parse (str "https://maps.example.com/maps/api/geocode/json?address=test") = .ok u ∧
      EncodeToString (hmacSHA1 k (u.Path ++ str "?" ++ u.RawQuery)) = body ++ [padChar] ∧
      body.length = 27 ∧ (body ++ [padChar]).length = 28 ∧
      (∀ c ∈ body, c ∈ encodeURL) ∧
      (∀ c ∈ body ++ [padChar], c ∉ str "+/&?#") ∧
      str "https://maps.example.com/maps/api/geocode/json?address=test&signature=XWUDmt0t3wAtw-HlbbdMi94xIXc=" =
        u.Scheme ++ str "://" ++ u.Host ++ u.Path ++ str "?" ++ u.RawQuery ++
          str "&signature=" ++ (body ++ [padChar]) :=
  SignURL_signature_shape
    (str "https://maps.example.com/maps/api/geocode/json?address=test")
    (str "AAAAAAAAAAAAAAAAAAAAAA==") _ (by decide)

/-! ## C4: malformed URLs -/

theorem unescapeCheck_of_not_wellEscaped (mode : Encoding) : ∀ p : Bytes,
    wellEscaped p = false → ∃ e, unescapeCheck mode p = some e
  | [], h => by simp [wellEscaped] at h
  | c :: rest, h => by
    unfold wellEscaped at h
    unfold unescapeCheck
    by_cases hc : c = 37
    · rw [if_pos hc] at h ⊢
      match rest, h with
      | [], _ => exact ⟨_, rfl⟩
      | [a], _ => exact ⟨_, rfl⟩
      | a :: b :: rest2, h =>
        simp only
        split
        · exact ⟨_, rfl⟩
        · rename_i hx
          split
          · exact ⟨_, rfl⟩
          · split
            · exact ⟨_, rfl⟩
            · apply unescapeCheck_of_not_wellEscaped mode rest2
              simp only [Bool.or_eq_true, Bool.not_eq_true', not_or, Bool.not_eq_false] at hx
              simpa [hx.1, hx.2] using h
    · rw [if_neg hc] at h ⊢
      split
      · exact ⟨_, rfl⟩
      · exact unescapeCheck_of_not_wellEscaped mode rest h

theorem unescape_of_not_wellEscaped (mode : Encoding) (p : Bytes) (h : wellEscaped p = false) :
    ∃ e, unescape p mode = .error e := by
  obtain ⟨e, he⟩ := unescapeCheck_of_not_wellEscaped mode p h
  exact ⟨e, by simp only [unescape, he]⟩

theorem Cut_withFragment (s : Bytes) (f : Option Bytes) (hs : 35 ∉ s) :
    (Cut (withFragment s f) (str "#")).1 = s ∧
      (Cut (withFragment s f) (str "#")).2.1 = f.getD [] := by
  rw [str_hash]
  cases f with
  | none => simp [withFragment, Cut_of_not_mem 35 s hs]
  | some f => simp [withFragment, Cut_append_of_not_mem 35 s f hs]

/-- A text whose part before the fragment does not parse does not parse. -/
theorem Parse_of_parse_error (s : Bytes) (f : Option Bytes) (e : ParseError) (hs : 35 ∉ s)
    (h : parse s = .error e) : Parse (withFragment s f) = .error ⟨str "parse", s, e⟩ := by
  unfold Parse
  simp only [(Cut_withFragment s f hs).1, h]

/-- A text whose fragment has a malformed escape does not parse. -/
theorem Parse_of_fragment_error (s f : Bytes) (hs : 35 ∉ s) (he : wellEscaped f = false) :
    ∃ e, Parse (withFragment s (some f)) = .error e := by
  obtain ⟨e, hu⟩ := unescape_of_not_wellEscaped .encodeFragment f he
  have hf : f ≠ [] := by
    rintro rfl
    simp [wellEscaped] at he
  have hc := Cut_withFragment s (some f) hs
  unfold Parse
  simp only [hc.1, hc.2, Option.getD_some]
  cases parse s with
  | error e2 => exact ⟨_, rfl⟩
  | ok url =>
    simp only [if_neg hf, hu]
    exact ⟨_, rfl⟩

theorem parse_of_control (s : Bytes) (b : Nat) (hb : b ∈ s) (hc : b < 32 ∨ b = 0x7f) :
    parse s = .error .invalidControlCharacter := by
  have h : stringContainsCTLByte s = true := by
    unfold stringContainsCTLByte
    rw [List.any_eq_true]
    exact ⟨b, hb, by simpa using hc⟩
  unfold parse
  rw [if_pos h]

theorem parse_of_leading_colon (s : Bytes) : ∃ e, parse (58 :: s) = .error e := by
  unfold parse
  split
  · exact ⟨_, rfl⟩
  · have hstar : (58 :: s) ≠ str "*" := by
      rw [str_star]
      intro h
      simp at h
    rw [if_neg hstar]
    simp only [getScheme, getSchemeLoop]
    refine ⟨.missingProtocolScheme, ?_⟩
    simp

theorem authorityText_byte (a : Bytes) (ha : authorityText a = true) :
    ∀ b ∈ a, 32 ≤ b ∧ b ≠ 0x7f ∧ b ≠ 47 ∧ b ≠ 63 ∧ b ≠ 35 := by
  simp only [authorityText, List.all_eq_true] at ha
  intro b hb
  have := ha b hb
  simpa using this

theorem pathText_byte (p : Bytes) (hp : pathText p = true) :
    ∀ b ∈ p, 32 ≤ b ∧ b ≠ 0x7f ∧ b ≠ 63 ∧ b ≠ 35 := by
  simp only [pathText, decide_eq_true_eq, List.all_eq_true] at hp
  intro b hb
  have := hp.2 b hb
  simpa using this

/-- In a text `scheme://authority path` followed by nothing or by `?query`, an
authority that `parseAuthority` rejects and a path that `unescape` rejects make
`parse` fail. -/
theorem parse_hierarchical_error (scheme authority path query tail : Bytes)
    (hs : plainScheme scheme = true) (ha : authorityText authority = true)
    (hpa : pathText path = true) (hq : plainQuery query = true)
    (ht : (tail = [] ∧ query = []) ∨ tail = 63 :: query) :
    (∀ e, parseAuthority authority = .error e →
      parse (scheme ++ 58 :: ((47 :: 47 :: (authority ++ path)) ++ tail)) = .error e) ∧
    (∀ r e, parseAuthority authority = .ok r → unescape path .encodePath = .error e →
      parse (scheme ++ 58 :: ((47 :: 47 :: (authority ++ path)) ++ tail)) = .error e) := by
  have hsb := plainScheme_byte scheme hs
  have hab := authorityText_byte authority ha
  have hpab := pathText_byte path hpa
  have hqb := plainQuery_byte query hq
  have htb : ∀ b ∈ tail, 32 ≤ b ∧ b ≠ 0x7f ∧ b ≠ 35 := by
    rcases ht with ⟨rfl, _⟩ | rfl
    · intro b hb; simp at hb
    · intro b hb
      rcases List.mem_cons.1 hb with rfl | hb
      · omega
      · exact hqb b hb
  have hne : scheme ≠ [] := by
    rintro rfl
    simp [plainScheme] at hs
  have hctl : stringContainsCTLByte
      (scheme ++ 58 :: ((47 :: 47 :: (authority ++ path)) ++ tail)) = false := by
    unfold stringContainsCTLByte
    rw [List.any_eq_false]
    intro b hb
    simp only [List.mem_append, List.mem_cons] at hb
    have hb2 : 32 ≤ b ∧ b ≠ 0x7f := by
      rcases hb with hb | rfl | (rfl | rfl | (hb | hb)) | hb
      · have := hsb b hb; omega
      · omega
      · omega
      · omega
      · have := hab b hb; omega
      · have := hpab b hb; omega
      · have := htb b hb; omega
    simp only [decide_eq_true_eq, not_or, not_lt]
    exact hb2
  have hstar : scheme ++ 58 :: ((47 :: 47 :: (authority ++ path)) ++ tail) ≠ str "*" := by
    rw [str_star]
    cases scheme with
    | nil => exact absurd rfl hne
    | cons c s1 =>
      intro h
      have h2 := congrArg List.length h
      simp at h2
  have h63 : 63 ∉ 47 :: 47 :: (authority ++ path) := by
    intro hm
    simp only [List.mem_cons, List.mem_append] at hm
    rcases hm with h | h | h | h
    · omega
    · omega
    · exact (hab 63 h).2.2.2.1 rfl
    · exact (hpab 63 h).2.2.1 rfl
  have hsplit := split_query (47 :: 47 :: (authority ++ path)) query tail h63 ht
  have h47 : 47 ∉ authority := fun hm => (hab 47 hm).2.2.1 rfl
  have hpath : path = [] ∨ path.head? = some 47 := by
    simp only [pathText, decide_eq_true_eq] at hpa
    exact hpa.1
  have hsa := split_authority authority path h47 hpath
  have hpre1 : HasPrefix (47 :: 47 :: (authority ++ path)) (str "/") = true := by
    rw [str_slash]
    simp [HasPrefix, List.isPrefixOf]
  have hpre2 : HasPrefix (47 :: 47 :: (authority ++ path)) (str "//") = true := by
    rw [str_slashes]
    simp [HasPrefix, List.isPrefixOf]
  have hdrop : List.drop 2 (47 :: 47 :: (authority ++ path)) = authority ++ path := rfl
  refine ⟨fun e hpe => ?_, fun r e hpr hue => ?_⟩
  · unfold parse
    rw [hctl]
    simp only [Bool.false_eq_true, if_false, if_neg hstar, getScheme_plain scheme _ hs,
      ToLower_plain scheme hs, hsplit.1, hsplit.2, hpre1, hpre2, Bool.not_true, false_and,
      ne_eq, hne, not_false_eq_true, true_or, and_self, if_true, hdrop]
    rcases hsa with ⟨hnil, hidx⟩ | hidx
    · subst hnil
      rw [hidx]
      simp only [List.append_nil, hpe]
    · rw [hidx]
      simp only [List.take_left', hpe]
  · obtain ⟨user, host⟩ := r
    unfold parse
    rw [hctl]
    simp only [Bool.false_eq_true, if_false, if_neg hstar, getScheme_plain scheme _ hs,
      ToLower_plain scheme hs, hsplit.1, hsplit.2, hpre1, hpre2, Bool.not_true, false_and,
      ne_eq, hne, not_false_eq_true, true_or, and_self, if_true, hdrop]
    rcases hsa with ⟨hnil, hidx⟩ | hidx
    · subst hnil
      rw [hidx]
      simp only [List.append_nil, hpr, hue]
    · rw [hidx]
      simp only [List.take_left', List.drop_left', hpr, hue]

theorem hash_not_mem_hierarchical (scheme authority path : Bytes) (q : Option Bytes)
    (hs : plainScheme scheme = true) (ha : authorityText authority = true)
    (hpa : pathText path = true) (hq : plainQuery (q.getD []) = true) :
    35 ∉ hierarchical scheme authority path q := by
  intro hb
  unfold hierarchical at hb
  rw [str_scheme_sep] at hb
  simp only [List.mem_append, List.mem_cons, List.not_mem_nil, or_false] at hb
  rcases hb with (((hb | hb | hb | hb) | hb) | hb) | hb
  · have := plainScheme_byte scheme hs 35 hb; omega
  · omega
  · omega
  · omega
  · exact (authorityText_byte authority ha 35 hb).2.2.2.2 rfl
  · exact (pathText_byte path hpa 35 hb).2.2.2 rfl
  · cases q with
    | none => simp [queryTail] at hb
    | some q =>
      simp only [queryTail, List.mem_cons] at hb
      rcases hb with hb | hb
      · omega
      · exact (plainQuery_byte q hq 35 hb).2.2 rfl

theorem hierarchical_eq (scheme authority path : Bytes) (q : Option Bytes) :
    hierarchical scheme authority path q =
      scheme ++ 58 :: ((47 :: 47 :: (authority ++ path)) ++ queryTail q) := by
  unfold hierarchical
  rw [str_scheme_sep]
  simp

/-- The same for `Parse`, with an optional query and an optional fragment. -/
theorem Parse_hierarchical_error (scheme authority path : Bytes) (q f : Option Bytes)
    (hs : plainScheme scheme = true) (ha : authorityText authority = true)
    (hpa : pathText path = true) (hq : plainQuery (q.getD []) = true)
    (h : (∃ e, parseAuthority authority = .error e) ∨
      (∃ e, unescape path .encodePath = .error e)) :
    ∃ e, Parse (withFragment (hierarchical scheme authority path q) f) = .error e := by
  have hhash := hash_not_mem_hierarchical scheme authority path q hs ha hpa hq
  have ht : (queryTail q = [] ∧ q.getD [] = []) ∨ queryTail q = 63 :: q.getD [] := by
    cases q with
    | none => exact Or.inl ⟨rfl, rfl⟩
    | some q => exact Or.inr rfl
  have hp := parse_hierarchical_error scheme authority path (q.getD []) _ hs ha hpa hq ht
  rw [← hierarchical_eq] at hp
  have herr : ∃ e, parse (hierarchical scheme authority path q) = .error e := by
    cases hpa2 : parseAuthority authority with
    | error e => exact ⟨e, hp.1 e hpa2⟩
    | ok r =>
      rcases h with ⟨e, he⟩ | ⟨e, he⟩
      · rw [hpa2] at he
        cases he
      · exact ⟨e, hp.2 r e hpa2 he⟩
  obtain ⟨e, he⟩ := herr
  exact ⟨_, Parse_of_parse_error _ f e hhash he⟩

theorem parseAuthority_unclosed_bracket (a : Bytes) (h1 : 93 ∉ a) (h2 : 64 ∉ a) :
    parseAuthority (91 :: a) = .error .missingBracketInHost := by
  have hat : LastIndex (91 :: a) (str "@") = none := by
    rw [str_at]
    apply LastIndex_none_of_not_mem
    intro hm
    rcases List.mem_cons.1 hm with hm | hm
    · omega
    · exact h2 hm
  have hbr : LastIndex (91 :: a) [93] = none := by
    apply LastIndex_none_of_not_mem
    intro hm
    rcases List.mem_cons.1 hm with hm | hm
    · omega
    · exact h1 hm
  have hpre : HasPrefix (91 :: a) (str "[") = true := by
    rw [str_bracket]
    simp [HasPrefix, List.isPrefixOf]
  have hcl : str "]" = [93] := by decide
  unfold parseAuthority
  simp only [hat, parseHost, hpre, if_true, hcl, hbr]

theorem parseAuthority_invalid_port (hostname ds : Bytes) (hh : plainHost hostname = true)
    (h1 : 58 ∉ ds) (h2 : 64 ∉ ds) (h3 : (ds.all fun b => 48 ≤ b ∧ b ≤ 57) = false) :
    parseAuthority (hostname ++ 58 :: ds) = .error (.invalidPort (58 :: ds)) := by
  have hhb := plainHost_byte hostname hh
  have hat : LastIndex (hostname ++ 58 :: ds) (str "@") = none := by
    rw [str_at]
    apply LastIndex_none_of_not_mem
    intro hm
    simp only [List.mem_append, List.mem_cons] at hm
    rcases hm with hm | hm | hm
    · exact (hhb 64 hm).2.2.2.2.2.2.2.2.1 rfl
    · omega
    · exact h2 hm
  have hpre : HasPrefix (hostname ++ 58 :: ds) (str "[") = false := by
    rw [str_bracket]
    cases hostname with
    | nil => simp [HasPrefix, List.isPrefixOf]
    | cons b t =>
      have := hhb b (List.mem_cons_self _ _)
      have hc : (91 == b) = false := by
        rw [beq_eq_false_iff_ne]; omega
      simp [HasPrefix, List.isPrefixOf, hc]
  have hv : validOptionalPort (58 :: ds) = false := by
    simp only [validOptionalPort, true_and]
    simpa using h3
  unfold parseAuthority
  simp only [hat, parseHost, hpre, Bool.false_eq_true, if_false, str_colon,
    LastIndex_append_of_not_mem 58 ds h1 hostname, List.drop_left', hv, Bool.not_false,
    if_true]

theorem authorityText_of_plain (hostname port : Bytes) (hh : plainHost hostname = true)
    (hp : plainPort port = true) : authorityText (hostname ++ port) = true := by
  simp only [authorityText, List.all_eq_true, decide_eq_true_eq]
  intro b hb
  rcases List.mem_append.1 hb with hb | hb
  · have := plainHost_byte hostname hh b hb
    exact ⟨this.2.2.1, this.2.2.2.1, this.2.2.2.2.2.2.1, this.2.2.2.2.2.2.2.1, this.2.2.2.2.1⟩
  · have := plainPort_byte port hp b hb
    omega

/-- Every malformed text of the kinds listed is rejected by `Parse`. -/
theorem Parse_of_malformed (rawURL : Bytes) (h : MalformedURL rawURL) :
    ∃ e, Parse rawURL = .error e := by
  cases h with
  | controlCharacter s f b hs hb hc =>
    exact ⟨_, Parse_of_parse_error s f _ hs (parse_of_control s b hb hc)⟩
  | leadingColon s f hs =>
    obtain ⟨e, he⟩ := parse_of_leading_colon s
    have h58 : 35 ∉ 58 :: s := by
      intro hm
      rcases List.mem_cons.1 hm with hm | hm
      · omega
      · exact hs hm
    exact ⟨_, Parse_of_parse_error (58 :: s) f e h58 he⟩
  | unclosedBracket scheme a path q f hs ha h1 h2 hp hq =>
    have hab := authorityText_byte a ha
    have ha2 : authorityText (91 :: a) = true := by
      simp only [authorityText, List.all_eq_true, decide_eq_true_eq]
      intro b hb
      rcases List.mem_cons.1 hb with rfl | hb
      · omega
      · exact hab b hb
    exact Parse_hierarchical_error scheme (91 :: a) path q f hs ha2 hp hq
      (Or.inl ⟨_, parseAuthority_unclosed_bracket a h1 h2⟩)
  | invalidPort scheme hostname ds path q f hs hh hd h1 h2 _ h3 hp hq =>
    have hdb := authorityText_byte ds hd
    have ha2 : authorityText (hostname ++ 58 :: ds) = true := by
      simp only [authorityText, List.all_eq_true, decide_eq_true_eq]
      intro b hb
      simp only [List.mem_append, List.mem_cons] at hb
      rcases hb with hb | rfl | hb
      · have := plainHost_byte hostname hh b hb
        exact ⟨this.2.2.1, this.2.2.2.1, this.2.2.2.2.2.2.1, this.2.2.2.2.2.2.2.1,
          this.2.2.2.2.1⟩
      · omega
      · exact hdb b hb
    exact Parse_hierarchical_error scheme (hostname ++ 58 :: ds) path q f hs ha2 hp hq
      (Or.inl ⟨_, parseAuthority_invalid_port hostname ds hh h1 h2 h3⟩)
  | pathEscape scheme hostname port path q f hs hh hpo hp he hq =>
    exact Parse_hierarchical_error scheme (hostname ++ port) path q f hs
      (authorityText_of_plain hostname port hh hpo) hp hq
      (Or.inr (unescape_of_not_wellEscaped .encodePath path he))
  | fragmentEscape s f hs he => exact Parse_of_fragment_error s f hs he

set_option maxRecDepth 100000 in
/-- C4, as stated, fails: `https://h/a b?x=1` holds a space, which is no
character of the URL grammar, and `SignURL` accepts it. -/
theorem SignURL_accepts_space_in_url :
    (32 ∈ str "https://h/a b?x=1" ∧ urlCharacter 32 = false) ∧
    onlyURLCharacters (str "https://h/a b?x=1") = false ∧
    SignURL (str "https://h/a b?x=1") (str "AAAAAAAAAAAAAAAAAAAAAA==") =
      (str "https://h/a b?x=1&signature=ZvRuxbNwhkDR2muXkjUC-IStKg8=", none) := by
  refine ⟨by decide, by decide, by decide⟩

/-- C4, amended: for a key that decodes, every URL text that `Parse` rejects
makes `SignURL` return the empty string and the error that wraps the parser's
error with `failed parsing url`; and `Parse` rejects every text that is
malformed in one of the listed ways (a control character, a leading `:`, an
unclosed `[` in the host, a port that is not a number, a malformed escape in the
path or in the fragment). -/
theorem SignURL_rejects_malformed_url (rawURL key k : Bytes)
    (hk : DecodeString key = (k, none)) :
    (∀ e, Parse rawURL = .error e →
      SignURL rawURL key = ([], some ⟨.url e, str "failed parsing url"⟩)) ∧
    (MalformedURL rawURL → ∃ e, Parse rawURL = .error e ∧
      SignURL rawURL key = ([], some ⟨.url e, str "failed parsing url"⟩)) := by
  refine ⟨fun e he => SignURL_of_url_error hk he, fun hm => ?_⟩
  obtain ⟨e, he⟩ := Parse_of_malformed rawURL hm
  exact ⟨e, he, SignURL_of_url_error hk he⟩

/-- C4, amended, at `http://[invalid` and at one text of each other kind. -/
theorem SignURL_rejects_malformed_url_witness :
    SignURL (str "http://[invalid") (str "AAAAAAAAAAAAAAAAAAAAAA==") =
      ([], some ⟨.url ⟨str "parse", str "http://[invalid", .missingBracketInHost⟩,
        str "failed parsing url"⟩) ∧
    (∃ e, Parse (str "http://[invalid") = .error e ∧
      SignURL (str "http://[invalid") (str "AAAAAAAAAAAAAAAAAAAAAA==") =
        ([], some ⟨.url e, str "failed parsing url"⟩)) ∧
    (∃ e, Parse (str "http://h/a" ++ 10 :: str "b") = .error e ∧
      SignURL (str "http://h/a" ++ 10 :: str "b") (str "AAAAAAAAAAAAAAAAAAAAAA==") =
        ([], some ⟨.url e, str "failed parsing url"⟩)) ∧
    (∃ e, Parse (str ":foo") = .error e ∧
      SignURL (str ":foo") (str "AAAAAAAAAAAAAAAAAAAAAA==") =
        ([], some ⟨.url e, str "failed parsing url"⟩)) ∧
    (∃ e, Parse (str "http://h:8a/p") = .error e ∧
      SignURL (str "http://h:8a/p") (str "AAAAAAAAAAAAAAAAAAAAAA==") =
        ([], some ⟨.url e, str "failed parsing url"⟩)) ∧
    (∃ e, Parse (str "http://h/%zz?x=1#top") = .error e ∧
      SignURL (str "http://h/%zz?x=1#top") (str "AAAAAAAAAAAAAAAAAAAAAA==") =
        ([], some ⟨.url e, str "failed parsing url"⟩)) ∧
    (∃ e, Parse (str "http://h/p#%zz") = .error e ∧
      SignURL (str "http://h/p#%zz") (str "AAAAAAAAAAAAAAAAAAAAAA==") =
        ([], some ⟨.url e, str "failed parsing url"⟩)) :=
  have hk : DecodeString (str "AAAAAAAAAAAAAAAAAAAAAA==") = (List.replicate 16 0, none) := by
    decide
  ⟨(SignURL_rejects_malformed_url (str "http://[invalid") _ _ hk).1 _ (by decide),
    (SignURL_rejects_malformed_url (str "http://[invalid") _ _ hk).2
      (MalformedURL.unclosedBracket (str "http") (str "invalid") [] none none
        (by decide) (by decide) (by decide) (by decide) (by decide) (by decide)),
    (SignURL_rejects_malformed_url (str "http://h/a" ++ 10 :: str "b") _ _ hk).2
      (MalformedURL.controlCharacter (str "http://h/a" ++ 10 :: str "b") none 10
        (by decide) (by decide) (by decide)),
    (SignURL_rejects_malformed_url (str ":foo") _ _ hk).2
      (MalformedURL.leadingColon (str "foo") none (by decide)),
    (SignURL_rejects_malformed_url (str "http://h:8a/p") _ _ hk).2
      (MalformedURL.invalidPort (str "http") (str "h") (str "8a") (str "/p") none none
        (by decide) (by decide) (by decide) (by decide) (by decide) (by decide) (by decide)
        (by decide) (by decide)),
    (SignURL_rejects_malformed_url (str "http://h/%zz?x=1#top") _ _ hk).2
      (MalformedURL.pathEscape (str "http") (str "h") [] (str "/%zz") (some (str "x=1"))
        (some (str "top")) (by decide) (by decide) (by decide) (by decide) (by decide)
        (by decide)),
    (SignURL_rejects_malformed_url (str "http://h/p#%zz") _ _ hk).2
      (MalformedURL.fragmentEscape (str "http://h/p") (str "%zz") (by decide) (by decide))⟩

end SignUrl
